import Mathlib

/-
Verification of the kev reconciliation and override-policy engine.

Part 1 embeds the Reconciler (spec sections 4.2 and 4.3).  The reconciler
implementation itself is not among the available source files (only its
caller `Reconcile` in pkg/kev/kev.go and its test suite are), so those
definitions are modelled from the specification's words and carry doc
comments starting with "Modelled from the spec:".

Part 2 embeds the parameter-inference code of package config
(`K8SCfgFromCompose`, `WorkloadTypeFromCompose`,
`WorkloadRestartPolicyFromCompose`, `LivenessProbeFromHealthcheck`,
`ParseK8SCfgFromMap`, `K8SConfiguration.Validate`), translated directly
from the Go source.
-/

namespace KevSpec

/-- Association-list lookup: the first entry whose key matches.  This is the
shallow embedding of reading a (string-keyed, ordered) mapping. -/
def plookup {α : Type} (k : String) : List (String × α) → Option α
  | [] => none
  | (k', v) :: rest => if k' = k then some v else plookup k rest

/-- Parameter maps: ordered mappings from namespaced parameter key to value. -/
abbrev Params := List (String × String)

/-- Overwrite the (first) entry for key `k` with value `v`, appending the
entry when the key is absent. -/
def setParam (k v : String) : Params → Params
  | [] => [(k, v)]
  | (k', v') :: rest => if k' = k then (k, v) :: rest else (k', v') :: setParam k v rest

/-- Policy of a recognized parameter key: Derived keys are recomputed from
source facts and overwrite the store; Tunable keys are defaulted once and
preserved; unrecognized keys are passed through untouched. -/
inductive Policy
  | derived
  | tunable
  | unrecognized
deriving DecidableEq

/-- An environment-variable binding stored in an override: a literal value, a
reference into a named secret's key, or a reference into a named config
object's key. -/
inductive Binding
  | literal (v : String)
  | secretRef (secretName key : String)
  | configRef (configName key : String)
deriving DecidableEq

/-- Parameter-level change produced while merging one entity's parameters. -/
inductive PChange
  | updated (key : String) (oldVal : Option String) (newVal : String)
  | added (key newVal : String)
deriving DecidableEq

/-- Environment-variable-level change produced while diffing one entity's
variable collection. -/
inductive VChange
  | added (varName : String)
  | deleted (varName : String)
deriving DecidableEq

/-- The parameter key a parameter-level change concerns. -/
def PChange.key : PChange → String
  | .updated k _ _ => k
  | .added k _ => k

/-- The variable name a variable-level change concerns. -/
def VChange.name : VChange → String
  | .added x => x
  | .deleted x => x

/-- One entry of the Change Report for a single environment. -/
inductive Change
  | versionUpdated (oldV newV : String)
  | svcAdded (name : String)
  | svcDeleted (name : String)
  | svcParamUpdated (svc key : String) (oldVal : Option String) (newVal : String)
  | svcParamAdded (svc key newVal : String)
  | svcVarAdded (svc varName : String)
  | svcVarDeleted (svc varName : String)
  | volAdded (name : String)
  | volDeleted (name : String)
  | volParamUpdated (vol key : String) (oldVal : Option String) (newVal : String)
  | volParamAdded (vol key newVal : String)
deriving DecidableEq

/-- The Service entity name a report entry concerns, when it is a
service-scoped entry. -/
def Change.svcScopeName : Change → Option String
  | .svcAdded n => some n
  | .svcDeleted n => some n
  | .svcParamUpdated n _ _ _ => some n
  | .svcParamAdded n _ _ => some n
  | .svcVarAdded n _ => some n
  | .svcVarDeleted n _ => some n
  | _ => none

/-- The Volume entity name a report entry concerns, when it is a
volume-scoped entry. -/
def Change.volScopeName : Change → Option String
  | .volAdded n => some n
  | .volDeleted n => some n
  | .volParamUpdated n _ _ _ => some n
  | .volParamAdded n _ _ => some n
  | _ => none

/-- A Service entity persisted in an environment's Override Store: a name, a
parameter mapping, and the environment-variable binding list. -/
structure StoredEntity where
  name : String
  params : Params
  envVars : List (String × Binding)
deriving DecidableEq

/-- A Volume entity persisted in an environment's Override Store. -/
structure StoredVolume where
  name : String
  params : Params
deriving DecidableEq

/-- An environment's Override Store: the stored schema version plus the
per-kind entity sets. -/
structure OverrideStore where
  version : String
  services : List StoredEntity
  volumes : List StoredVolume
deriving DecidableEq

/-- The Source Model: declared schema version plus named Services (facts of
type `σ`) and named Volumes (facts of type `τ`), names unique per kind. -/
structure SourceModel (σ τ : Type) where
  version : String
  services : List (String × σ)
  volumes : List (String × τ)

/-- Modelled from the spec: phase 3 of the Reconciler (parameter merge, spec
section 4.2), whose implementation is absent from the sources.  Walks the
freshly inferred parameter set: each Derived key overwrites the stored value
and records an update exactly when the value changed; each Tunable key is
inserted (and recorded as an addition) only when absent, otherwise left
untouched with no report entry; unrecognized keys in the store are passed
through unchanged. -/
def mergeParams (pol : String → Policy) : Params → Params → Params × List PChange
  | [], stored => (stored, [])
  | (k, v) :: rest, stored =>
    match pol k with
    | .derived =>
      match plookup k stored with
      | some old =>
        if old = v then mergeParams pol rest stored
        else
          let r := mergeParams pol rest (setParam k v stored)
          (r.1, PChange.updated k (some old) v :: r.2)
      | none =>
        let r := mergeParams pol rest (setParam k v stored)
        (r.1, PChange.updated k none v :: r.2)
    | .tunable =>
      if (plookup k stored).isSome then mergeParams pol rest stored
      else
        let r := mergeParams pol rest (stored ++ [(k, v)])
        (r.1, PChange.added k v :: r.2)
    | .unrecognized => mergeParams pol rest stored

/-- Modelled from the spec: phase 4 of the Reconciler (environment-variable
diff, spec section 4.2), whose implementation is absent from the sources.
Variables declared in the source but absent from the override are added as
literal bindings (an unassigned source value is present-but-empty); variables
bound in the override but no longer declared in the source are removed;
variables present in both retain their stored binding unconditionally. -/
def mergeVars (srcVars : List (String × Option String)) (stored : List (String × Binding)) :
    List (String × Binding) × List VChange :=
  let kept := stored.filter fun nv => (plookup nv.1 srcVars).isSome
  let removed := stored.filter fun nv => !(plookup nv.1 srcVars).isSome
  let fresh := srcVars.filter fun sv => !(plookup sv.1 stored).isSome
  (kept ++ fresh.map fun sv => (sv.1, Binding.literal (sv.2.getD "")),
   removed.map (fun nv => VChange.deleted nv.1) ++ fresh.map fun sv => VChange.added sv.1)

/-- Tag a parameter-level change with the service name it concerns. -/
def pchangeToSvc (n : String) : PChange → Change
  | .updated k o v => Change.svcParamUpdated n k o v
  | .added k v => Change.svcParamAdded n k v

/-- Tag a variable-level change with the service name it concerns. -/
def vchangeToSvc (n : String) : VChange → Change
  | .added x => Change.svcVarAdded n x
  | .deleted x => Change.svcVarDeleted n x

/-- Tag a parameter-level change with the volume name it concerns. -/
def pchangeToVol (n : String) : PChange → Change
  | .updated k o v => Change.volParamUpdated n k o v
  | .added k v => Change.volParamAdded n k v

/-- Modelled from the spec: phase 2 of the Reconciler restricted to the
stored Service entities (spec section 4.2), whose implementation is absent
from the sources.  A stored entity with no same-named Service in the Source
Model is deleted and reported; a common entity has its parameters merged
(phase 3) and its variables diffed (phase 4); an inference failure for a
common entity fatal-fails reconciliation for the whole environment. -/
def reconcileStoredServices {σ : Type} (inferS : σ → Option Params)
    (srcVars : σ → List (String × Option String)) (pol : String → Policy)
    (src : List (String × σ)) :
    List StoredEntity → Option (List StoredEntity × List Change)
  | [] => some ([], [])
  | e :: rest =>
    match plookup e.name src with
    | none =>
      match reconcileStoredServices inferS srcVars pol src rest with
      | none => none
      | some (es, cs) => some (es, Change.svcDeleted e.name :: cs)
    | some f =>
      match inferS f with
      | none => none
      | some ps =>
        let mp := mergeParams pol ps e.params
        let mv := mergeVars (srcVars f) e.envVars
        match reconcileStoredServices inferS srcVars pol src rest with
        | none => none
        | some (es, cs) =>
          some ({ name := e.name, params := mp.1, envVars := mv.1 } :: es,
                mp.2.map (pchangeToSvc e.name) ++ mv.2.map (vchangeToSvc e.name) ++ cs)

/-- Modelled from the spec: phase 2 of the Reconciler, additions of Services
(spec section 4.2), whose implementation is absent from the sources.  Each
Source Model Service with no same-named stored entity is created, initialized
by full inference, its variables copied from the source declaration, and
reported as an addition (in Source Model iteration order). -/
def addServices {σ : Type} (inferS : σ → Option Params)
    (srcVars : σ → List (String × Option String)) (storedNames : List String) :
    List (String × σ) → Option (List StoredEntity × List Change)
  | [] => some ([], [])
  | (n, f) :: rest =>
    if n ∈ storedNames then addServices inferS srcVars storedNames rest
    else
      match inferS f with
      | none => none
      | some ps =>
        match addServices inferS srcVars storedNames rest with
        | none => none
        | some (es, cs) =>
          some ({ name := n, params := ps,
                  envVars := (srcVars f).map fun sv => (sv.1, Binding.literal (sv.2.getD "")) } :: es,
                Change.svcAdded n :: cs)

/-- Modelled from the spec: phase 2 of the Reconciler restricted to the
stored Volume entities (spec section 4.2), whose implementation is absent
from the sources. -/
def reconcileStoredVolumes {τ : Type} (inferV : τ → Option Params) (pol : String → Policy)
    (src : List (String × τ)) :
    List StoredVolume → Option (List StoredVolume × List Change)
  | [] => some ([], [])
  | e :: rest =>
    match plookup e.name src with
    | none =>
      match reconcileStoredVolumes inferV pol src rest with
      | none => none
      | some (es, cs) => some (es, Change.volDeleted e.name :: cs)
    | some f =>
      match inferV f with
      | none => none
      | some ps =>
        let mp := mergeParams pol ps e.params
        match reconcileStoredVolumes inferV pol src rest with
        | none => none
        | some (es, cs) =>
          some ({ name := e.name, params := mp.1 } :: es,
                mp.2.map (pchangeToVol e.name) ++ cs)

/-- Modelled from the spec: phase 2 of the Reconciler, additions of Volumes
(spec section 4.2), whose implementation is absent from the sources. -/
def addVolumes {τ : Type} (inferV : τ → Option Params) (storedNames : List String) :
    List (String × τ) → Option (List StoredVolume × List Change)
  | [] => some ([], [])
  | (n, f) :: rest =>
    if n ∈ storedNames then addVolumes inferV storedNames rest
    else
      match inferV f with
      | none => none
      | some ps =>
        match addVolumes inferV storedNames rest with
        | none => none
        | some (es, cs) =>
          some ({ name := n, params := ps } :: es, Change.volAdded n :: cs)

/-- Modelled from the spec: the Reconciler for one (Environment, Source
Model) pair (spec section 4.2), whose implementation is absent from the
sources.  Phase 1 syncs the stored schema version to the Source Model's and
records an update when the two differ; phase 2 diffs the entity sets per
kind; phases 3 and 4 merge parameters and diff environment variables for
common entities.  Inference is a pure function of the Source Model facts
(`inferS`, `inferV`); a failing inference fatal-fails the environment. -/
def reconcileEnv {σ τ : Type} (inferS : σ → Option Params) (inferV : τ → Option Params)
    (srcVars : σ → List (String × Option String)) (pol : String → Policy)
    (src : SourceModel σ τ) (store : OverrideStore) :
    Option (OverrideStore × List Change) :=
  let versionCh : List Change :=
    if store.version = src.version then []
    else [Change.versionUpdated store.version src.version]
  match reconcileStoredServices inferS srcVars pol src.services store.services with
  | none => none
  | some (keptS, chS) =>
    match addServices inferS srcVars (store.services.map StoredEntity.name) src.services with
    | none => none
    | some (addS, chAS) =>
      match reconcileStoredVolumes inferV pol src.volumes store.volumes with
      | none => none
      | some (keptV, chV) =>
        match addVolumes inferV (store.volumes.map StoredVolume.name) src.volumes with
        | none => none
        | some (addV, chAV) =>
          some ({ version := src.version, services := keptS ++ addS, volumes := keptV ++ addV },
                versionCh ++ chS ++ chAS ++ chV ++ chAV)

/-- A stored parameter map agrees with an inferred parameter set: every
Derived key holds exactly the inferred value and every Tunable key is
present.  This is the post-state of the phase-3 merge. -/
def ParamsSynced (pol : String → Policy) (ps stored : Params) : Prop :=
  ∀ k v, (k, v) ∈ ps →
    (pol k = .derived → plookup k stored = some v) ∧
    (pol k = .tunable → (plookup k stored).isSome = true)

/-- A stored variable collection and the source-declared variables bind the
same set of names.  This is the post-state of the phase-4 diff. -/
def VarsSynced (srcVars : List (String × Option String))
    (stored : List (String × Binding)) : Prop :=
  (∀ nv ∈ stored, (plookup nv.1 srcVars).isSome = true) ∧
  (∀ sv ∈ srcVars, (plookup sv.1 stored).isSome = true)

/-- A stored Service entity is in sync with the Source Model: it matches a
source Service whose inference succeeds, its parameters are merged and its
variables are diffed. -/
def SvcSynced {σ : Type} (inferS : σ → Option Params)
    (srcVars : σ → List (String × Option String)) (pol : String → Policy)
    (src : List (String × σ)) (e : StoredEntity) : Prop :=
  ∃ f ps, plookup e.name src = some f ∧ inferS f = some ps ∧
    ParamsSynced pol ps e.params ∧ VarsSynced (srcVars f) e.envVars

/-- A stored Volume entity is in sync with the Source Model. -/
def VolSynced {τ : Type} (inferV : τ → Option Params) (pol : String → Policy)
    (src : List (String × τ)) (e : StoredVolume) : Prop :=
  ∃ f ps, plookup e.name src = some f ∧ inferV f = some ps ∧ ParamsSynced pol ps e.params

end KevSpec

namespace config

/-- `config.ExecProbe`: the exec block of a liveness probe (Go `Exec` with a
`Command` field). -/
structure ExecProbe where
  command : List String
deriving DecidableEq

/-- `config.LivenessProbe`: probe type, exec command, and timing fields.  The
Go `Type` field is named `probeType` here; durations (Go `time.Duration`,
int64 nanoseconds) are embedded as `Int`.  The `failureThreashold` spelling
follows the source. -/
structure LivenessProbe where
  probeType : String
  exec : ExecProbe
  timeout : Int
  failureThreashold : Int
  initialDelay : Int
  period : Int
deriving DecidableEq

/-- Modelled from the spec: `config.ReadinessProbe`; its defining source file
is absent, and no field of it is validated or inspected by the embedded
functions, so only the probe type is carried. -/
structure ReadinessProbe where
  probeType : String
deriving DecidableEq

/-- `config.Workload`: the workload-related k8s configuration.  The Go
`Type` field is named `wtype`; `Replicas` is a Go `int`, embedded as `Int`.
Validator tags in the source: `Type` required, one of DaemonSet StatefulSet
Deployment; `Replicas` required and greater than zero; `LivenessProbe`
required. -/
structure Workload where
  wtype : String
  replicas : Int
  livenessProbe : LivenessProbe
  readinessProbe : ReadinessProbe
  restartPolicy : String
deriving DecidableEq

/-- `config.Service` (the k8s service extension): its exposure type.  The Go
`Type` field is named `stype` here. -/
structure Service where
  stype : String
deriving DecidableEq

/-- `config.K8SConfiguration`: root of the k8s-specific extension fields. -/
structure K8SConfiguration where
  enabled : Bool
  workload : Workload
  service : Service
deriving DecidableEq

/-- The zero `ExecProbe` (Go zero value). -/
def zeroExecProbe : ExecProbe := { command := [] }

/-- The zero `LivenessProbe` (Go zero value). -/
def zeroLivenessProbe : LivenessProbe :=
  { probeType := "", exec := zeroExecProbe, timeout := 0, failureThreashold := 0,
    initialDelay := 0, period := 0 }

/-- The zero `ReadinessProbe` (Go zero value). -/
def zeroReadinessProbe : ReadinessProbe := { probeType := "" }

/-- The zero `Workload` (Go zero value). -/
def zeroWorkload : Workload :=
  { wtype := "", replicas := 0, livenessProbe := zeroLivenessProbe,
    readinessProbe := zeroReadinessProbe, restartPolicy := "" }

/-- The zero `K8SConfiguration` (Go `K8SConfiguration{}`). -/
def zeroK8SConfiguration : K8SConfiguration :=
  { enabled := false, workload := zeroWorkload, service := { stype := "" } }

/-- `config.K8SExtensionKey`. -/
def K8SExtensionKey : String := "x-k8s"

/-- Modelled from the spec: the workload-type constants (their defining
source file is absent); the values are fixed by the validator tag
`oneof=DaemonSet StatefulSet Deployment` in the source. -/
def DaemonsetWorkload : String := "DaemonSet"

/-- Modelled from the spec: the stateful workload-type constant. -/
def StatefulsetWorkload : String := "StatefulSet"

/-- Modelled from the spec: the stateless workload-type constant. -/
def DeploymentWorkload : String := "Deployment"

/-- Modelled from the spec: the default workload type used by
`ParseK8SCfgFromMap` and `DefaultK8SConfig` (defining file absent); the
stateless kind is the documented default. -/
def DefaultWorkload : String := "Deployment"

/-- Modelled from the spec: restart-policy constant for the retry-on-failure
policy (defining file absent; k8s policy names). -/
def RestartPolicyOnFailure : String := "OnFailure"

/-- Modelled from the spec: restart-policy constant for never-restart. -/
def RestartPolicyNever : String := "Never"

/-- Modelled from the spec: restart-policy constant for always-restart. -/
def RestartPolicyAlways : String := "Always"

/-- Modelled from the spec: the no-exposure service type constant (defining
file absent; `DefaultK8SConfig` in the source sets `Type: "None"`). -/
def NoService : String := "None"

/-- Modelled from the spec: the cluster-internal exposure type constant. -/
def ClusterIPService : String := "ClusterIP"

/-- Modelled from the spec: probe-type constant `none` (string rendering of
the Go `ProbeTypeNone` enum value, defining file absent). -/
def ProbeTypeNone : String := "none"

/-- Modelled from the spec: probe-type constant `exec`. -/
def ProbeTypeExec : String := "exec"

/-- Modelled from the spec: `DefaultLivenessProbe` (defining file absent) —
the default placeholder exec probe; command and timings follow the defaults
visible in the repository's test data. -/
def DefaultLivenessProbe : LivenessProbe :=
  { probeType := ProbeTypeExec,
    exec := { command := ["echo", "Define healthcheck command for service"] },
    timeout := 10 * 1000000000,
    failureThreashold := 3,
    initialDelay := 60 * 1000000000,
    period := 60 * 1000000000 }

/-- Modelled from the spec: `DefaultReadinessProbe` (defining file absent) —
no readiness probe by default. -/
def DefaultReadinessProbe : ReadinessProbe := { probeType := ProbeTypeNone }

/-- A validation failure, identifying the offending field and the violated
constraint tag. -/
structure ValidationError where
  field : String
  tag : String
deriving DecidableEq

/-- The list of validator failures for a `Workload`, in struct field order,
following the tags in the source (`required,oneof=DaemonSet StatefulSet
Deployment` on the type, `required,gt=0` on the replicas, `required` on the
liveness probe).  The validator's `required` fails on the Go zero value. -/
def workloadFailures (w : Workload) : List ValidationError :=
  (if w.wtype = "" then [⟨"Workload.Type", "required"⟩]
   else if w.wtype = DaemonsetWorkload ∨ w.wtype = StatefulsetWorkload ∨
       w.wtype = DeploymentWorkload then []
   else [⟨"Workload.Type", "oneof"⟩])
  ++ (if w.replicas = 0 then [⟨"Workload.Replicas", "required"⟩]
      else if w.replicas ≤ 0 then [⟨"Workload.Replicas", "gt"⟩] else [])
  ++ (if w.livenessProbe = zeroLivenessProbe then [⟨"Workload.LivenessProbe", "required"⟩]
      else [])

/-- `K8SConfiguration.Validate`: runs the struct validator over the workload;
returns the first failure carrying a `required` tag if any, otherwise the
first failure, otherwise no error. -/
def K8SConfiguration.Validate (k : K8SConfiguration) : Option ValidationError :=
  match (workloadFailures k.workload).find? (fun e => e.tag == "required") with
  | some e => some e
  | none => (workloadFailures k.workload).head?

/-- Field-level overlay for strings (mergo with override: a non-empty source
value wins). -/
def mergeStr (dst src : String) : String := if src = "" then dst else src

/-- Field-level overlay for integers (a non-zero source value wins). -/
def mergeInt (dst src : Int) : Int := if src = 0 then dst else src

/-- Field-level overlay for string lists (a non-empty source list wins). -/
def mergeList (dst src : List String) : List String := if src = [] then dst else src

/-- Recursive overlay of an `ExecProbe`. -/
def ExecProbe.Merge (dst src : ExecProbe) : ExecProbe :=
  { command := mergeList dst.command src.command }

/-- Recursive overlay of a `LivenessProbe`. -/
def LivenessProbe.Merge (dst src : LivenessProbe) : LivenessProbe :=
  { probeType := mergeStr dst.probeType src.probeType,
    exec := dst.exec.Merge src.exec,
    timeout := mergeInt dst.timeout src.timeout,
    failureThreashold := mergeInt dst.failureThreashold src.failureThreashold,
    initialDelay := mergeInt dst.initialDelay src.initialDelay,
    period := mergeInt dst.period src.period }

/-- Recursive overlay of a `ReadinessProbe`. -/
def ReadinessProbe.Merge (dst src : ReadinessProbe) : ReadinessProbe :=
  { probeType := mergeStr dst.probeType src.probeType }

/-- Recursive overlay of a `Workload`. -/
def Workload.Merge (dst src : Workload) : Workload :=
  { wtype := mergeStr dst.wtype src.wtype,
    replicas := mergeInt dst.replicas src.replicas,
    livenessProbe := dst.livenessProbe.Merge src.livenessProbe,
    readinessProbe := dst.readinessProbe.Merge src.readinessProbe,
    restartPolicy := mergeStr dst.restartPolicy src.restartPolicy }

/-- `K8SConfiguration.Merge`: the mergo-based recursive overlay with
override, embedded field by field (a non-zero field of `other` overrides;
struct fields recurse); the mergo error path is unreachable for two values of
the same struct type and is therefore not modelled. -/
def K8SConfiguration.Merge (k other : K8SConfiguration) : K8SConfiguration :=
  { enabled := k.enabled || other.enabled,
    workload := k.workload.Merge other.workload,
    service := { stype := mergeStr k.service.stype other.service.stype } }

/-- An extension value as stored in a compose service's extension map: what
YAML-decoding it into the `x-k8s` configuration yields — either the decoded
configuration or a decode failure naming the offending field.  The YAML
encode/decode round trip of the source is embedded by this outcome. -/
abbrev ExtVal := Except ValidationError K8SConfiguration

/-- `k8sConfigOptions`: parsing options for the `x-k8s` extension. -/
structure k8sConfigOptions where
  requireExtensions : Bool
  disableValidation : Bool
deriving DecidableEq

/-- `K8SCfgOption` modifies parsing behaviour of the x-k8s extension (the Go
functional-option pattern, embedded as a state transformer). -/
abbrev K8SCfgOption := k8sConfigOptions → k8sConfigOptions

/-- `DisableValidation` option. -/
def DisableValidation : K8SCfgOption := fun kco => { kco with disableValidation := true }

/-- `RequireExtensions` option: ensure that x-k8s is present and validated. -/
def RequireExtensions : K8SCfgOption := fun kco => { kco with requireExtensions := true }

/-- Fold a list of options over the zero-valued option record, as the Go
loop over `opts` does. -/
def applyOpts (opts : List K8SCfgOption) : k8sConfigOptions :=
  opts.foldl (fun acc o => o acc) { requireExtensions := false, disableValidation := false }

/-- `ParseK8SCfgFromMap`: extraction of the k8s-specific extension values
from the top level extension map.  When the `x-k8s` key is absent and
extensions are not required, it returns the zero configuration with no error
before any decoding; otherwise it decodes, and unless validation is
disabled, forces the workload type to the default and validates. -/
def ParseK8SCfgFromMap (m : List (String × ExtVal)) (opts : List K8SCfgOption) :
    K8SConfiguration × Option ValidationError :=
  let options := applyOpts opts
  if !(KevSpec.plookup K8SExtensionKey m).isSome && !options.requireExtensions then
    (zeroK8SConfiguration, none)
  else
    let decoded : ExtVal :=
      match KevSpec.plookup K8SExtensionKey m with
      | none => Except.ok zeroK8SConfiguration
      | some v => v
    match decoded with
    | .error e => (zeroK8SConfiguration, some e)
    | .ok k8s =>
      if options.disableValidation then (k8s, none)
      else
        let k8s' := { k8s with workload := { k8s.workload with wtype := DefaultWorkload } }
        match k8s'.Validate with
        | some e => (zeroK8SConfiguration, some e)
        | none => (k8s', none)

end config

namespace composego

/-- `composego.RestartPolicy` (the deploy block's restart policy): only the
condition is consulted by the embedded functions. -/
structure RestartPolicy where
  condition : String
deriving DecidableEq

/-- `composego.DeployConfig`: deploy mode, optional replica count (a nilable
unsigned integer) and optional restart policy. -/
structure DeployConfig where
  mode : String
  replicas : Option Nat
  restartPolicy : Option RestartPolicy
deriving DecidableEq

/-- `composego.HealthCheckConfig`: the compose healthcheck block.  Durations
(nilable `time.Duration`) and retries are embedded as `Option Nat`. -/
structure HealthCheckConfig where
  disable : Bool
  test : List String
  timeout : Option Nat
  retries : Option Nat
  startPeriod : Option Nat
  interval : Option Nat
deriving DecidableEq

/-- `composego.ServiceVolumeConfig`: a volume mount declared by a service. -/
structure ServiceVolumeConfig where
  source : String
  target : String
deriving DecidableEq

/-- `composego.ServicePortConfig`: a published port. -/
structure ServicePortConfig where
  target : Nat
  published : Nat
  mode : String
deriving DecidableEq

/-- `composego.ServiceConfig`: the compose service facts consulted by
parameter inference.  `ports` is an `Option` to embed the Go distinction
between a nil and an empty slice, which `K8SCfgFromCompose` tests with
`svc.Ports != nil`; `environment` maps a variable name to a nilable value;
`extensions` is the raw extension map. -/
structure ServiceConfig where
  name : String
  deploy : Option DeployConfig
  volumes : List ServiceVolumeConfig
  ports : Option (List ServicePortConfig)
  healthCheck : Option HealthCheckConfig
  environment : List (String × Option String)
  extensions : List (String × config.ExtVal)

end composego

namespace config

/-- `WorkloadRestartPolicyFromCompose`: maps the declared restart condition
(`on-failure`, `none`, anything else) to the restart-policy constants, and
yields the empty string when the deploy block or its restart policy is
absent. -/
def WorkloadRestartPolicyFromCompose (svc : composego.ServiceConfig) : String :=
  match svc.deploy with
  | none => ""
  | some d =>
    match d.restartPolicy with
    | none => ""
    | some rp =>
      if rp.condition = "on-failure" then RestartPolicyOnFailure
      else if rp.condition = "none" then RestartPolicyNever
      else RestartPolicyAlways

/-- `WorkloadReplicasFromCompose`: the declared replica count, default 1. -/
def WorkloadReplicasFromCompose (svc : composego.ServiceConfig) : Int :=
  match svc.deploy with
  | none => 1
  | some d =>
    match d.replicas with
    | none => 1
    | some r => (r : Int)

/-- `WorkloadTypeFromCompose`: daemon-style workload when the deploy mode is
`global`, stateful when the service mounts volumes, stateless otherwise. -/
def WorkloadTypeFromCompose (svc : composego.ServiceConfig) : String :=
  if (match svc.deploy with | some d => d.mode == "global" | none => false) then
    DaemonsetWorkload
  else if svc.volumes.length ≠ 0 then StatefulsetWorkload
  else DeploymentWorkload

/-- `LivenessProbeFromHealthcheck`: the default placeholder probe when no
healthcheck block is present; no probe when the healthcheck is disabled;
otherwise an exec probe taking the command (stripping a leading `cmd`
marker, compared case-insensitively) and the timing fields verbatim, each
timing field defaulting to zero when unset. -/
def LivenessProbeFromHealthcheck (healthcheck : Option composego.HealthCheckConfig) :
    LivenessProbe :=
  match healthcheck with
  | none => DefaultLivenessProbe
  | some hc =>
    if hc.disable then { zeroLivenessProbe with probeType := ProbeTypeNone }
    else
      let test :=
        match hc.test with
        | [] => []
        | t0 :: rest => if t0.toLower = "cmd" then rest else t0 :: rest
      { probeType := ProbeTypeExec,
        exec := { command := test },
        timeout := (hc.timeout.getD 0 : Int),
        failureThreashold := (hc.retries.getD 0 : Int),
        initialDelay := (hc.startPeriod.getD 0 : Int),
        period := (hc.interval.getD 0 : Int) }

/-- `K8SCfgFromCompose`: infers the full k8s configuration for one compose
service — workload type, replicas, restart policy, exposure type from port
presence, probes — then overlays the service's parsed `x-k8s` extension
(parsed with validation disabled) and validates the merged result.  On any
failure the zero configuration is returned together with the error. -/
def K8SCfgFromCompose (svc : composego.ServiceConfig) :
    K8SConfiguration × Option ValidationError :=
  let cfg : K8SConfiguration :=
    { enabled := true,
      workload :=
        { wtype := WorkloadTypeFromCompose svc,
          replicas := WorkloadReplicasFromCompose svc,
          restartPolicy := WorkloadRestartPolicyFromCompose svc,
          livenessProbe := LivenessProbeFromHealthcheck svc.healthCheck,
          readinessProbe := DefaultReadinessProbe },
      service := { stype := if svc.ports.isSome then ClusterIPService else NoService } }
  match ParseK8SCfgFromMap svc.extensions [DisableValidation] with
  | (_, some e) => (zeroK8SConfiguration, some e)
  | (k8sext, none) =>
    let merged := cfg.Merge k8sext
    match merged.Validate with
    | some e => (zeroK8SConfiguration, some e)
    | none => (merged, none)

end config

namespace KevSpec

lemma plookup_cons {α : Type} (k k' : String) (v : α) (l : List (String × α)) :
    plookup k ((k', v) :: l) = if k' = k then some v else plookup k l := rfl

lemma addServices_changes {σ : Type} (inferS : σ → Option Params)
    (srcVars : σ → List (String × Option String)) (names : List String) :
    ∀ (l : List (String × σ)) es cs, addServices inferS srcVars names l = some (es, cs) →
      ∀ c ∈ cs, ∃ n, c = Change.svcAdded n := by
  intro l
  induction l with
  | nil =>
    intro es cs h c hc
    simp only [addServices, Option.some.injEq, Prod.mk.injEq] at h
    rw [← h.2] at hc
    simp at hc
  | cons p rest ih =>
    intro es cs h c hc
    obtain ⟨n, f⟩ := p
    simp only [addServices] at h
    split at h
    · exact ih es cs h c hc
    · cases hf : inferS f with
      | none => rw [hf] at h; exact Option.noConfusion h
      | some ps =>
        rw [hf] at h
        cases hr : addServices inferS srcVars names rest with
        | none => rw [hr] at h; exact Option.noConfusion h
        | some q =>
          obtain ⟨es', cs'⟩ := q
          rw [hr] at h
          simp only [Option.some.injEq, Prod.mk.injEq] at h
          rw [← h.2] at hc
          rcases List.mem_cons.mp hc with hc0 | hc1
          · exact ⟨n, hc0⟩
          · exact ih es' cs' hr c hc1

lemma addVolumes_changes {τ : Type} (inferV : τ → Option Params) (names : List String) :
    ∀ (l : List (String × τ)) es cs, addVolumes inferV names l = some (es, cs) →
      ∀ c ∈ cs, ∃ n, c = Change.volAdded n := by
  intro l
  induction l with
  | nil =>
    intro es cs h c hc
    simp only [addVolumes, Option.some.injEq, Prod.mk.injEq] at h
    rw [← h.2] at hc
    simp at hc
  | cons p rest ih =>
    intro es cs h c hc
    obtain ⟨n, f⟩ := p
    simp only [addVolumes] at h
    split at h
    · exact ih es cs h c hc
    · cases hf : inferV f with
      | none => rw [hf] at h; exact Option.noConfusion h
      | some ps =>
        rw [hf] at h
        cases hr : addVolumes inferV names rest with
        | none => rw [hr] at h; exact Option.noConfusion h
        | some q =>
          obtain ⟨es', cs'⟩ := q
          rw [hr] at h
          simp only [Option.some.injEq, Prod.mk.injEq] at h
          rw [← h.2] at hc
          rcases List.mem_cons.mp hc with hc0 | hc1
          · exact ⟨n, hc0⟩
          · exact ih es' cs' hr c hc1

lemma reconcileStoredServices_changes {σ : Type} (inferS : σ → Option Params)
    (srcVars : σ → List (String × Option String)) (pol : String → Policy)
    (src : List (String × σ)) :
    ∀ (stored : List StoredEntity) kept cs,
      reconcileStoredServices inferS srcVars pol src stored = some (kept, cs) →
      ∀ c ∈ cs, (∃ n, c = Change.svcDeleted n) ∨ (∃ n k o w, c = Change.svcParamUpdated n k o w) ∨
        (∃ n k w, c = Change.svcParamAdded n k w) ∨ (∃ n x, c = Change.svcVarAdded n x) ∨
        (∃ n x, c = Change.svcVarDeleted n x) := by
  intro stored
  induction stored with
  | nil =>
    intro kept cs h c hc
    simp only [reconcileStoredServices, Option.some.injEq, Prod.mk.injEq] at h
    rw [← h.2] at hc
    simp at hc
  | cons e rest ih =>
    intro kept cs h c hc
    simp only [reconcileStoredServices] at h
    split at h
    · split at h
      · exact Option.noConfusion h
      · next es' cs' hr =>
        simp only [Option.some.injEq, Prod.mk.injEq] at h
        rw [← h.2] at hc
        rcases List.mem_cons.mp hc with hc0 | hc1
        · exact Or.inl ⟨e.name, hc0⟩
        · exact ih es' cs' hr c hc1
    · split at h
      · exact Option.noConfusion h
      · split at h
        · exact Option.noConfusion h
        · next es' cs' hr =>
          simp only [Option.some.injEq, Prod.mk.injEq] at h
          rw [← h.2] at hc
          rcases List.mem_append.mp hc with hc01 | hc2
          · rcases List.mem_append.mp hc01 with hc0 | hc1
            · obtain ⟨pc, _, hpc⟩ := List.mem_map.mp hc0
              cases pc with
              | updated k o w => exact Or.inr (Or.inl ⟨e.name, k, o, w, hpc.symm⟩)
              | added k w => exact Or.inr (Or.inr (Or.inl ⟨e.name, k, w, hpc.symm⟩))
            · obtain ⟨vc, _, hvc⟩ := List.mem_map.mp hc1
              cases vc with
              | added x => exact Or.inr (Or.inr (Or.inr (Or.inl ⟨e.name, x, hvc.symm⟩)))
              | deleted x => exact Or.inr (Or.inr (Or.inr (Or.inr ⟨e.name, x, hvc.symm⟩)))
          · exact ih es' cs' hr c hc2

lemma reconcileStoredVolumes_changes {τ : Type} (inferV : τ → Option Params)
    (pol : String → Policy) (src : List (String × τ)) :
    ∀ (stored : List StoredVolume) kept cs,
      reconcileStoredVolumes inferV pol src stored = some (kept, cs) →
      ∀ c ∈ cs, (∃ n, c = Change.volDeleted n) ∨ (∃ n k o w, c = Change.volParamUpdated n k o w) ∨
        (∃ n k w, c = Change.volParamAdded n k w) := by
  intro stored
  induction stored with
  | nil =>
    intro kept cs h c hc
    simp only [reconcileStoredVolumes, Option.some.injEq, Prod.mk.injEq] at h
    rw [← h.2] at hc
    simp at hc
  | cons e rest ih =>
    intro kept cs h c hc
    simp only [reconcileStoredVolumes] at h
    split at h
    · split at h
      · exact Option.noConfusion h
      · next es' cs' hr =>
        simp only [Option.some.injEq, Prod.mk.injEq] at h
        rw [← h.2] at hc
        rcases List.mem_cons.mp hc with hc0 | hc1
        · exact Or.inl ⟨e.name, hc0⟩
        · exact ih es' cs' hr c hc1
    · split at h
      · exact Option.noConfusion h
      · split at h
        · exact Option.noConfusion h
        · next es' cs' hr =>
          simp only [Option.some.injEq, Prod.mk.injEq] at h
          rw [← h.2] at hc
          rcases List.mem_append.mp hc with hc0 | hc2
          · obtain ⟨pc, _, hpc⟩ := List.mem_map.mp hc0
            cases pc with
            | updated k o w => exact Or.inr (Or.inl ⟨e.name, k, o, w, hpc.symm⟩)
            | added k w => exact Or.inr (Or.inr ⟨e.name, k, w, hpc.symm⟩)
          · exact ih es' cs' hr c hc2

lemma reconcileEnv_eq {σ τ : Type} (inferS : σ → Option Params) (inferV : τ → Option Params)
    (srcVars : σ → List (String × Option String)) (pol : String → Policy)
    (src : SourceModel σ τ) (store store' : OverrideStore) (rep : List Change)
    (h : reconcileEnv inferS inferV srcVars pol src store = some (store', rep)) :
    ∃ keptS chS addS chAS keptV chV addV chAV,
      reconcileStoredServices inferS srcVars pol src.services store.services = some (keptS, chS) ∧
      addServices inferS srcVars (store.services.map StoredEntity.name) src.services
        = some (addS, chAS) ∧
      reconcileStoredVolumes inferV pol src.volumes store.volumes = some (keptV, chV) ∧
      addVolumes inferV (store.volumes.map StoredVolume.name) src.volumes = some (addV, chAV) ∧
      store' = { version := src.version, services := keptS ++ addS, volumes := keptV ++ addV } ∧
      rep = (if store.version = src.version then []
             else [Change.versionUpdated store.version src.version]) ++ chS ++ chAS ++ chV ++ chAV := by
  simp only [reconcileEnv] at h
  cases h1 : reconcileStoredServices inferS srcVars pol src.services store.services with
  | none => rw [h1] at h; exact Option.noConfusion h
  | some q1 =>
    obtain ⟨keptS, chS⟩ := q1
    rw [h1] at h
    cases h2 : addServices inferS srcVars (store.services.map StoredEntity.name) src.services with
    | none => rw [h2] at h; exact Option.noConfusion h
    | some q2 =>
      obtain ⟨addS, chAS⟩ := q2
      rw [h2] at h
      cases h3 : reconcileStoredVolumes inferV pol src.volumes store.volumes with
      | none => rw [h3] at h; exact Option.noConfusion h
      | some q3 =>
        obtain ⟨keptV, chV⟩ := q3
        rw [h3] at h
        cases h4 : addVolumes inferV (store.volumes.map StoredVolume.name) src.volumes with
        | none => rw [h4] at h; exact Option.noConfusion h
        | some q4 =>
          obtain ⟨addV, chAV⟩ := q4
          rw [h4] at h
          simp only [Option.some.injEq, Prod.mk.injEq] at h
          exact ⟨keptS, chS, addS, chAS, keptV, chV, addV, chAV, rfl, rfl, rfl, rfl,
                 h.1.symm, h.2.symm⟩

end KevSpec

namespace KevSpec

/-- C6: reconciliation overwrites the stored schema version with the Source
Model's version; a version-update entry carrying both the old and the new
version is recorded exactly when the two versions differ. -/
theorem version_sync {σ τ : Type} (inferS : σ → Option Params) (inferV : τ → Option Params)
    (srcVars : σ → List (String × Option String)) (pol : String → Policy)
    (src : SourceModel σ τ) (store store' : OverrideStore) (rep : List Change)
    (h : reconcileEnv inferS inferV srcVars pol src store = some (store', rep)) :
    store'.version = src.version ∧
    (store.version ≠ src.version → Change.versionUpdated store.version src.version ∈ rep) ∧
    (store.version = src.version → ∀ o n, Change.versionUpdated o n ∉ rep) := by
  obtain ⟨keptS, chS, addS, chAS, keptV, chV, addV, chAV, h1, h2, h3, h4, hst, hrep⟩ :=
    reconcileEnv_eq inferS inferV srcVars pol src store store' rep h
  subst hst hrep
  refine ⟨rfl, ?_, ?_⟩
  · intro hne
    rw [if_neg hne]
    simp
  · intro heq o n hmem
    rw [if_pos heq] at hmem
    simp only [List.nil_append] at hmem
    rcases List.mem_append.mp hmem with hm | hmAV
    · rcases List.mem_append.mp hm with hm' | hmV
      · rcases List.mem_append.mp hm' with hmS | hmAS
        · rcases reconcileStoredServices_changes inferS srcVars pol src.services
              store.services keptS chS h1 _ hmS with
            ⟨a, e'⟩ | ⟨a, b, c', d, e'⟩ | ⟨a, b, c', e'⟩ | ⟨a, b, e'⟩ | ⟨a, b, e'⟩ <;>
          exact Change.noConfusion e'
        · rcases addServices_changes inferS srcVars _ src.services addS chAS h2 _ hmAS with
            ⟨a, e'⟩
          exact Change.noConfusion e'
      · rcases reconcileStoredVolumes_changes inferV pol src.volumes
            store.volumes keptV chV h3 _ hmV with
          ⟨a, e'⟩ | ⟨a, b, c', d, e'⟩ | ⟨a, b, c', e'⟩ <;>
        exact Change.noConfusion e'
    · rcases addVolumes_changes inferV _ src.volumes addV chAV h4 _ hmAV with ⟨a, e'⟩
      exact Change.noConfusion e'

/-- Witness for C6: a concrete reconciliation where the source version
`3.7` differs from the stored `3.5`; the store ends at `3.7` and the report
contains the version-update entry. -/
theorem version_sync_witness :
    ({ version := "3.7", services := [], volumes := [] } : OverrideStore).version = "3.7" ∧
    Change.versionUpdated "3.5" "3.7" ∈ [Change.versionUpdated "3.5" "3.7"] := by
  have hv := version_sync (fun _ : Unit => some []) (fun _ : Unit => some [])
      (fun _ => []) (fun _ => Policy.unrecognized)
      { version := "3.7", services := [], volumes := [] }
      { version := "3.5", services := [], volumes := [] }
      { version := "3.7", services := [], volumes := [] }
      [Change.versionUpdated "3.5" "3.7"] (by decide)
  exact ⟨hv.1, hv.2.1 (by decide)⟩

end KevSpec

/-- C7 counterexample: a service declaring the `replicated` deploy mode (and
no volume mounts) is classified as a stateless Deployment, not a DaemonSet,
so declaring a replicated deploy mode does not yield a daemon-style
workload. -/
theorem workloadType_replicated_counterexample :
    config.WorkloadTypeFromCompose
        { name := "web",
          deploy := some { mode := "replicated", replicas := none, restartPolicy := none },
          volumes := [], ports := none, healthCheck := none, environment := [],
          extensions := [] }
      = config.DeploymentWorkload ∧
    config.DeploymentWorkload ≠ config.DaemonsetWorkload :=
  ⟨rfl, by decide⟩

/-- C7 (amended): workload classification is daemon-style (DaemonSet) exactly
when the declared deploy mode is `global`; otherwise stateful (StatefulSet)
when the service declares a non-empty volume list; otherwise stateless
(Deployment). -/
theorem workloadType_spec (svc : composego.ServiceConfig) :
    ((∃ d, svc.deploy = some d ∧ d.mode = "global") →
        config.WorkloadTypeFromCompose svc = config.DaemonsetWorkload) ∧
    ((∀ d, svc.deploy = some d → d.mode ≠ "global") → svc.volumes ≠ [] →
        config.WorkloadTypeFromCompose svc = config.StatefulsetWorkload) ∧
    ((∀ d, svc.deploy = some d → d.mode ≠ "global") → svc.volumes = [] →
        config.WorkloadTypeFromCompose svc = config.DeploymentWorkload) := by
  refine ⟨?_, ?_, ?_⟩
  · rintro ⟨d, hd, hm⟩
    unfold config.WorkloadTypeFromCompose
    simp [hd, hm]
  · intro hng hv
    unfold config.WorkloadTypeFromCompose
    cases hd : svc.deploy with
    | none => simp [hv]
    | some d => simp [beq_eq_false_iff_ne.mpr (hng d hd), hv]
  · intro hng hv
    unfold config.WorkloadTypeFromCompose
    cases hd : svc.deploy with
    | none => simp [hv]
    | some d => simp [beq_eq_false_iff_ne.mpr (hng d hd), hv]

/-- Witness for C7's amended statement: a service with deploy mode `global`
classifies as a DaemonSet. -/
theorem workloadType_spec_witness :
    config.WorkloadTypeFromCompose
        { name := "agent",
          deploy := some { mode := "global", replicas := none, restartPolicy := none },
          volumes := [], ports := none, healthCheck := none, environment := [],
          extensions := [] }
      = config.DaemonsetWorkload :=
  (workloadType_spec _).1 ⟨_, rfl, rfl⟩

/-- C8 counterexample: a service with no deploy block gets the empty restart
policy, not the always-restart policy, so an unset/absent restart
declaration does not yield always-restart. -/
theorem restartPolicy_unset_counterexample :
    config.WorkloadRestartPolicyFromCompose
        { name := "db", deploy := none, volumes := [], ports := none, healthCheck := none,
          environment := [], extensions := [] }
      = "" ∧
    ("" : String) ≠ config.RestartPolicyAlways :=
  ⟨rfl, by decide⟩

/-- C8 (amended): a declared restart condition maps `on-failure` to
retry-on-failure, `none` to never-restart, and any other declared condition
to always-restart; when the deploy block or its restart policy is absent the
inferred restart policy is the empty string. -/
theorem restartPolicy_spec (svc : composego.ServiceConfig) :
    (∀ d rp, svc.deploy = some d → d.restartPolicy = some rp →
        config.WorkloadRestartPolicyFromCompose svc =
          (if rp.condition = "on-failure" then config.RestartPolicyOnFailure
           else if rp.condition = "none" then config.RestartPolicyNever
           else config.RestartPolicyAlways)) ∧
    ((svc.deploy = none ∨ ∃ d, svc.deploy = some d ∧ d.restartPolicy = none) →
        config.WorkloadRestartPolicyFromCompose svc = "") := by
  constructor
  · intro d rp hd hrp
    simp only [config.WorkloadRestartPolicyFromCompose, hd, hrp]
  · rintro (hd | ⟨d, hd, hrp⟩)
    · simp only [config.WorkloadRestartPolicyFromCompose, hd]
    · simp only [config.WorkloadRestartPolicyFromCompose, hd, hrp]

/-- Witness for C8's amended statement: condition `on-failure` maps to the
retry-on-failure policy. -/
theorem restartPolicy_spec_witness :
    config.WorkloadRestartPolicyFromCompose
        { name := "job",
          deploy := some { mode := "", replicas := none,
                           restartPolicy := some { condition := "on-failure" } },
          volumes := [], ports := none, healthCheck := none, environment := [],
          extensions := [] }
      = config.RestartPolicyOnFailure :=
  (restartPolicy_spec _).1
    ({ mode := "", replicas := none,
       restartPolicy := some { condition := "on-failure" } } : composego.DeployConfig)
    ({ condition := "on-failure" } : composego.RestartPolicy) rfl rfl

/-- C9: parameter inference for one compose service either fails and returns
the zero configuration together with a validation error, or succeeds with a
configuration that passes validation; it never returns a partially-applied
configuration. -/
theorem k8scfg_all_or_nothing (svc : composego.ServiceConfig) :
    ((config.K8SCfgFromCompose svc).2.isSome →
        (config.K8SCfgFromCompose svc).1 = config.zeroK8SConfiguration) ∧
    ((config.K8SCfgFromCompose svc).2 = none →
        config.K8SConfiguration.Validate (config.K8SCfgFromCompose svc).1 = none) := by
  simp only [config.K8SCfgFromCompose]
  generalize (if svc.ports.isSome then config.ClusterIPService else config.NoService) = st
  cases hp : config.ParseK8SCfgFromMap svc.extensions [config.DisableValidation] with
  | mk c e =>
    cases e with
    | some err =>
      exact ⟨fun _ => rfl, fun hfalse => Option.noConfusion hfalse⟩
    | none =>
      dsimp only
      split
      · exact ⟨fun _ => rfl, fun hfalse => Option.noConfusion hfalse⟩
      · next hv => exact ⟨fun hs => absurd hs (by simp), fun _ => hv⟩

/-- Witness for C9: a plain service with no extensions infers successfully,
and the inferred configuration passes validation. -/
theorem k8scfg_all_or_nothing_witness :
    (config.K8SCfgFromCompose
        { name := "web", deploy := none, volumes := [], ports := none, healthCheck := none,
          environment := [], extensions := [] }).2 = none ∧
    config.K8SConfiguration.Validate
        (config.K8SCfgFromCompose
          { name := "web", deploy := none, volumes := [], ports := none, healthCheck := none,
            environment := [], extensions := [] }).1 = none :=
  ⟨by decide, (k8scfg_all_or_nothing _).2 (by decide)⟩

/-- C10: with the `x-k8s` key absent from the extension map and the
require-extensions option not in force, `ParseK8SCfgFromMap` returns the
zero configuration and no error, independent of the map's contents. -/
theorem parse_without_extensions (m : List (String × config.ExtVal))
    (opts : List config.K8SCfgOption)
    (hkey : KevSpec.plookup config.K8SExtensionKey m = none)
    (hreq : (config.applyOpts opts).requireExtensions = false) :
    config.ParseK8SCfgFromMap m opts = (config.zeroK8SConfiguration, none) := by
  unfold config.ParseK8SCfgFromMap
  simp [hkey, hreq]

/-- Witness for C10: a map holding only an unrelated extension key, parsed
with no options, yields the zero configuration with no error. -/
theorem parse_without_extensions_witness :
    config.ParseK8SCfgFromMap [("x-other", Except.ok config.zeroK8SConfiguration)] []
      = (config.zeroK8SConfiguration, none) :=
  parse_without_extensions _ _ rfl rfl

namespace KevSpec

lemma plookup_isSome_iff_mem {α : Type} (k : String) :
    ∀ l : List (String × α), (plookup k l).isSome = true ↔ k ∈ l.map Prod.fst := by
  intro l
  induction l with
  | nil => simp [plookup]
  | cons p rest ih =>
    obtain ⟨k', v⟩ := p
    by_cases h : k' = k
    · subst h
      simp [plookup]
    · rw [plookup_cons, if_neg h]
      simp only [List.map_cons, List.mem_cons, ih]
      constructor
      · exact fun hm => Or.inr hm
      · rintro (hk | hm)
        · exact absurd hk.symm h
        · exact hm

lemma plookup_eq_none_iff {α : Type} (k : String) (l : List (String × α)) :
    plookup k l = none ↔ k ∉ l.map Prod.fst := by
  rw [← plookup_isSome_iff_mem k l]
  cases plookup k l <;> simp

lemma plookup_isSome_of_mem {α : Type} {k : String} {v : α} {l : List (String × α)}
    (h : (k, v) ∈ l) : (plookup k l).isSome = true := by
  rw [plookup_isSome_iff_mem]
  exact List.mem_map.mpr ⟨(k, v), h, rfl⟩

lemma plookup_of_mem_nodup {α : Type} {k : String} {v : α} :
    ∀ {l : List (String × α)}, (l.map Prod.fst).Nodup → (k, v) ∈ l → plookup k l = some v := by
  intro l
  induction l with
  | nil => intro _ hm; simp at hm
  | cons p rest ih =>
    intro hnd hm
    obtain ⟨k', v'⟩ := p
    simp only [List.map_cons, List.nodup_cons] at hnd
    rcases List.mem_cons.mp hm with he | hm'
    · obtain ⟨hk, hv⟩ := Prod.mk.injEq .. ▸ he
      injection he with hk hv
      subst hk; subst hv
      rw [plookup_cons, if_pos rfl]
    · have hk : k' ≠ k := by
        intro he'
        subst he'
        exact hnd.1 (List.mem_map.mpr ⟨(k', v), hm', rfl⟩)
      rw [plookup_cons, if_neg hk]
      exact ih hnd.2 hm'

lemma plookup_append_of_isSome {α : Type} {k : String} {l1 : List (String × α)}
    (l2 : List (String × α)) (h : (plookup k l1).isSome = true) :
    plookup k (l1 ++ l2) = plookup k l1 := by
  induction l1 with
  | nil => simp [plookup] at h
  | cons p rest ih =>
    obtain ⟨k', v⟩ := p
    by_cases hk : k' = k
    · subst hk
      simp [plookup_cons, if_pos rfl]
    · rw [plookup_cons, if_neg hk] at h
      rw [List.cons_append, plookup_cons, if_neg hk, plookup_cons, if_neg hk]
      exact ih h

lemma plookup_append_of_none {α : Type} {k : String} {l1 : List (String × α)}
    (l2 : List (String × α)) (h : plookup k l1 = none) :
    plookup k (l1 ++ l2) = plookup k l2 := by
  induction l1 with
  | nil => rfl
  | cons p rest ih =>
    obtain ⟨k', v⟩ := p
    by_cases hk : k' = k
    · subst hk
      rw [plookup_cons, if_pos rfl] at h
      exact Option.noConfusion h
    · rw [plookup_cons, if_neg hk] at h
      rw [List.cons_append, plookup_cons, if_neg hk]
      exact ih h

lemma plookup_filter {α : Type} (p : String × α → Bool) (k : String)
    (hp : ∀ v, p (k, v) = true) :
    ∀ l : List (String × α), plookup k (l.filter p) = plookup k l := by
  intro l
  induction l with
  | nil => rfl
  | cons q rest ih =>
    obtain ⟨k', v⟩ := q
    by_cases hk : k' = k
    · subst hk
      rw [List.filter_cons, if_pos (hp v), plookup_cons, if_pos rfl, plookup_cons, if_pos rfl]
    · rw [List.filter_cons, plookup_cons, if_neg hk]
      split
      · rw [plookup_cons, if_neg hk]
        exact ih
      · exact ih

lemma plookup_map_keys {α β : Type} (g : String × α → β) (k : String) :
    ∀ l : List (String × α),
      (plookup k (l.map fun sv => (sv.1, g sv))).isSome = (plookup k l).isSome := by
  intro l
  induction l with
  | nil => rfl
  | cons q rest ih =>
    obtain ⟨k', v⟩ := q
    by_cases hk : k' = k
    · subst hk
      simp [plookup_cons, if_pos rfl]
    · simp only [List.map_cons, plookup_cons, if_neg hk]
      exact ih

lemma plookup_setParam_self (k v : String) :
    ∀ ps : Params, plookup k (setParam k v ps) = some v := by
  intro ps
  induction ps with
  | nil => simp [setParam, plookup_cons, if_pos rfl]
  | cons q rest ih =>
    obtain ⟨k', v'⟩ := q
    by_cases hk : k' = k
    · subst hk
      rw [setParam, if_pos rfl, plookup_cons, if_pos rfl]
    · rw [setParam, if_neg hk, plookup_cons, if_neg hk]
      exact ih

lemma plookup_setParam_ne {k k' : String} (v : String) (hne : k' ≠ k) :
    ∀ ps : Params, plookup k (setParam k' v ps) = plookup k ps := by
  intro ps
  induction ps with
  | nil => simp [setParam, plookup_cons, if_neg hne, plookup]
  | cons q rest ih =>
    obtain ⟨k0, v0⟩ := q
    by_cases hk : k0 = k'
    · subst hk
      rw [setParam, if_pos rfl, plookup_cons, if_neg hne, plookup_cons, if_neg hne]
    · rw [setParam, if_neg hk, plookup_cons, plookup_cons]
      split
      · rfl
      · exact ih

lemma mergeParams_nil (pol : String → Policy) (stored : Params) :
    mergeParams pol [] stored = (stored, []) := rfl

lemma mergeParams_cons_derived_eq {pol : String → Policy} {k v : String}
    (rest stored : Params) (hp : pol k = .derived) (hl : plookup k stored = some v) :
    mergeParams pol ((k, v) :: rest) stored = mergeParams pol rest stored := by
  simp only [mergeParams, hp, hl, if_true, eq_self_iff_true]

lemma mergeParams_cons_derived_ne {pol : String → Policy} {k v old : String}
    (rest stored : Params) (hp : pol k = .derived) (hl : plookup k stored = some old)
    (hne : old ≠ v) :
    mergeParams pol ((k, v) :: rest) stored =
      ((mergeParams pol rest (setParam k v stored)).1,
       PChange.updated k (some old) v :: (mergeParams pol rest (setParam k v stored)).2) := by
  simp only [mergeParams, hp, hl, if_neg hne]

lemma mergeParams_cons_derived_none {pol : String → Policy} {k : String} (v : String)
    (rest stored : Params) (hp : pol k = .derived) (hl : plookup k stored = none) :
    mergeParams pol ((k, v) :: rest) stored =
      ((mergeParams pol rest (setParam k v stored)).1,
       PChange.updated k none v :: (mergeParams pol rest (setParam k v stored)).2) := by
  simp only [mergeParams, hp, hl]

lemma mergeParams_cons_tunable_present {pol : String → Policy} {k : String} (v : String)
    (rest stored : Params) (hp : pol k = .tunable) (hs : (plookup k stored).isSome = true) :
    mergeParams pol ((k, v) :: rest) stored = mergeParams pol rest stored := by
  simp only [mergeParams, hp, hs, if_true, eq_self_iff_true]

lemma mergeParams_cons_tunable_absent {pol : String → Policy} {k : String} (v : String)
    (rest stored : Params) (hp : pol k = .tunable) (hs : (plookup k stored).isSome = false) :
    mergeParams pol ((k, v) :: rest) stored =
      ((mergeParams pol rest (stored ++ [(k, v)])).1,
       PChange.added k v :: (mergeParams pol rest (stored ++ [(k, v)])).2) := by
  simp only [mergeParams, hp, hs, Bool.false_eq_true, if_false]

lemma mergeParams_cons_unrecognized {pol : String → Policy} {k : String} (v : String)
    (rest stored : Params) (hp : pol k = .unrecognized) :
    mergeParams pol ((k, v) :: rest) stored = mergeParams pol rest stored := by
  simp only [mergeParams, hp]

end KevSpec

namespace KevSpec

lemma ParamsSynced.tail {pol : String → Policy} {kv : String × String} {rest stored : Params}
    (h : ParamsSynced pol (kv :: rest) stored) : ParamsSynced pol rest stored :=
  fun k v hm => h k v (List.mem_cons_of_mem _ hm)

lemma mergeParams_synced (pol : String → Policy) :
    ∀ (ps stored : Params), ParamsSynced pol ps stored →
      mergeParams pol ps stored = (stored, []) := by
  intro ps
  induction ps with
  | nil => intro stored _; rfl
  | cons kv rest ih =>
    obtain ⟨k, v⟩ := kv
    intro stored hsync
    have hk := hsync k v (List.mem_cons_self _ _)
    cases hp : pol k with
    | derived =>
      rw [mergeParams_cons_derived_eq rest stored hp (hk.1 hp)]
      exact ih stored hsync.tail
    | tunable =>
      rw [mergeParams_cons_tunable_present v rest stored hp (hk.2 hp)]
      exact ih stored hsync.tail
    | unrecognized =>
      rw [mergeParams_cons_unrecognized v rest stored hp]
      exact ih stored hsync.tail

lemma mergeParams_lookup_of_not_mem {pol : String → Policy} {k : String} :
    ∀ {ps stored : Params}, k ∉ ps.map Prod.fst →
      plookup k (mergeParams pol ps stored).1 = plookup k stored := by
  intro ps
  induction ps with
  | nil => intro stored _; rfl
  | cons kv rest ih =>
    obtain ⟨k', v'⟩ := kv
    intro stored hnm
    have hk : k' ≠ k := fun he => hnm (by simp [he])
    have hnm' : k ∉ rest.map Prod.fst := fun hm => hnm (by simp [hm])
    cases hp : pol k' with
    | derived =>
      cases hl : plookup k' stored with
      | some old =>
        by_cases hov : old = v'
        · subst hov
          rw [mergeParams_cons_derived_eq rest stored hp hl]
          exact ih hnm'
        · rw [mergeParams_cons_derived_ne rest stored hp hl hov]
          dsimp only
          rw [ih hnm', plookup_setParam_ne v' hk]
      | none =>
        rw [mergeParams_cons_derived_none v' rest stored hp hl]
        dsimp only
        rw [ih hnm', plookup_setParam_ne v' hk]
    | tunable =>
      cases hs : (plookup k' stored).isSome with
      | true =>
        rw [mergeParams_cons_tunable_present v' rest stored hp hs]
        exact ih hnm'
      | false =>
        rw [mergeParams_cons_tunable_absent v' rest stored hp hs]
        dsimp only
        rw [ih hnm']
        cases hsk : plookup k stored with
        | some w => rw [plookup_append_of_isSome _ (by rw [hsk]; rfl), hsk]
        | none =>
          rw [plookup_append_of_none _ hsk, plookup_cons, if_neg hk]
          rfl
    | unrecognized =>
      rw [mergeParams_cons_unrecognized v' rest stored hp]
      exact ih hnm'

lemma mergeParams_change_key {pol : String → Policy} :
    ∀ {ps stored : Params} {c : PChange}, c ∈ (mergeParams pol ps stored).2 →
      c.key ∈ ps.map Prod.fst := by
  intro ps
  induction ps with
  | nil => intro stored c hc; simp [mergeParams_nil] at hc
  | cons kv rest ih =>
    obtain ⟨k', v'⟩ := kv
    intro stored c hc
    cases hp : pol k' with
    | derived =>
      cases hl : plookup k' stored with
      | some old =>
        by_cases hov : old = v'
        · subst hov
          rw [mergeParams_cons_derived_eq rest stored hp hl] at hc
          exact List.mem_cons_of_mem _ (ih hc)
        · rw [mergeParams_cons_derived_ne rest stored hp hl hov] at hc
          dsimp only at hc
          rcases List.mem_cons.mp hc with hc0 | hc1
          · subst hc0; simp [PChange.key]
          · exact List.mem_cons_of_mem _ (ih hc1)
      | none =>
        rw [mergeParams_cons_derived_none v' rest stored hp hl] at hc
        dsimp only at hc
        rcases List.mem_cons.mp hc with hc0 | hc1
        · subst hc0; simp [PChange.key]
        · exact List.mem_cons_of_mem _ (ih hc1)
    | tunable =>
      cases hs : (plookup k' stored).isSome with
      | true =>
        rw [mergeParams_cons_tunable_present v' rest stored hp hs] at hc
        exact List.mem_cons_of_mem _ (ih hc)
      | false =>
        rw [mergeParams_cons_tunable_absent v' rest stored hp hs] at hc
        dsimp only at hc
        rcases List.mem_cons.mp hc with hc0 | hc1
        · subst hc0; simp [PChange.key]
        · exact List.mem_cons_of_mem _ (ih hc1)
    | unrecognized =>
      rw [mergeParams_cons_unrecognized v' rest stored hp] at hc
      exact List.mem_cons_of_mem _ (ih hc)

lemma mergeParams_tunable_kept {pol : String → Policy} {k : String}
    (hpol : pol k = .tunable) :
    ∀ {ps stored : Params}, (plookup k stored).isSome = true →
      plookup k (mergeParams pol ps stored).1 = plookup k stored ∧
      ∀ c ∈ (mergeParams pol ps stored).2, c.key ≠ k := by
  intro ps
  induction ps with
  | nil => intro stored _; exact ⟨rfl, by simp [mergeParams_nil]⟩
  | cons kv rest ih =>
    obtain ⟨k', v'⟩ := kv
    intro stored hsome
    by_cases hk : k' = k
    · subst hk
      rw [mergeParams_cons_tunable_present v' rest stored hpol hsome]
      exact ih hsome
    · cases hp : pol k' with
      | derived =>
        cases hl : plookup k' stored with
        | some old =>
          by_cases hov : old = v'
          · subst hov
            rw [mergeParams_cons_derived_eq rest stored hp hl]
            exact ih hsome
          · rw [mergeParams_cons_derived_ne rest stored hp hl hov]
            dsimp only
            have hs1 : (plookup k (setParam k' v' stored)).isSome = true := by
              rw [plookup_setParam_ne v' hk]; exact hsome
            obtain ⟨ihl, ihc⟩ := ih hs1
            refine ⟨by rw [ihl, plookup_setParam_ne v' hk], ?_⟩
            intro c hc
            rcases List.mem_cons.mp hc with hc0 | hc1
            · subst hc0; simpa [PChange.key] using hk
            · exact ihc c hc1
        | none =>
          rw [mergeParams_cons_derived_none v' rest stored hp hl]
          dsimp only
          have hs1 : (plookup k (setParam k' v' stored)).isSome = true := by
            rw [plookup_setParam_ne v' hk]; exact hsome
          obtain ⟨ihl, ihc⟩ := ih hs1
          refine ⟨by rw [ihl, plookup_setParam_ne v' hk], ?_⟩
          intro c hc
          rcases List.mem_cons.mp hc with hc0 | hc1
          · subst hc0; simpa [PChange.key] using hk
          · exact ihc c hc1
      | tunable =>
        cases hs : (plookup k' stored).isSome with
        | true =>
          rw [mergeParams_cons_tunable_present v' rest stored hp hs]
          exact ih hsome
        | false =>
          rw [mergeParams_cons_tunable_absent v' rest stored hp hs]
          dsimp only
          have happ : plookup k (stored ++ [(k', v')]) = plookup k stored :=
            plookup_append_of_isSome _ hsome
          have hs1 : (plookup k (stored ++ [(k', v')])).isSome = true := by
            rw [happ]; exact hsome
          obtain ⟨ihl, ihc⟩ := ih hs1
          refine ⟨by rw [ihl, happ], ?_⟩
          intro c hc
          rcases List.mem_cons.mp hc with hc0 | hc1
          · subst hc0; simpa [PChange.key] using hk
          · exact ihc c hc1
      | unrecognized =>
        rw [mergeParams_cons_unrecognized v' rest stored hp]
        exact ih hsome

end KevSpec

namespace KevSpec

lemma mergeParams_establishes {pol : String → Policy} :
    ∀ {ps stored : Params}, (ps.map Prod.fst).Nodup →
      ParamsSynced pol ps (mergeParams pol ps stored).1 := by
  intro ps
  induction ps with
  | nil => intro stored _ k v hm; simp at hm
  | cons kv rest ih =>
    obtain ⟨k, v⟩ := kv
    intro stored hnd
    simp only [List.map_cons, List.nodup_cons] at hnd
    obtain ⟨hknr, hndr⟩ := hnd
    intro k0 v0 hm
    rcases List.mem_cons.mp hm with he | hmr
    · injection he with hek hev
      subst hek
      subst hev
      constructor
      · intro hp
        cases hl : plookup k0 stored with
        | some old =>
          by_cases hov : old = v0
          · subst hov
            rw [mergeParams_cons_derived_eq rest stored hp hl,
                mergeParams_lookup_of_not_mem hknr, hl]
          · rw [mergeParams_cons_derived_ne rest stored hp hl hov]
            dsimp only
            rw [mergeParams_lookup_of_not_mem hknr, plookup_setParam_self]
        | none =>
          rw [mergeParams_cons_derived_none v0 rest stored hp hl]
          dsimp only
          rw [mergeParams_lookup_of_not_mem hknr, plookup_setParam_self]
      · intro hp
        cases hs : (plookup k0 stored).isSome with
        | true =>
          rw [mergeParams_cons_tunable_present v0 rest stored hp hs,
              mergeParams_lookup_of_not_mem hknr]
          exact hs
        | false =>
          rw [mergeParams_cons_tunable_absent v0 rest stored hp hs]
          dsimp only
          rw [mergeParams_lookup_of_not_mem hknr]
          have hnone : plookup k0 stored = none := by
            cases hpp : plookup k0 stored with
            | none => rfl
            | some w => rw [hpp] at hs; exact Bool.noConfusion hs
          rw [plookup_append_of_none _ hnone, plookup_cons, if_pos rfl]
          rfl
    · cases hp : pol k with
      | derived =>
        cases hl : plookup k stored with
        | some old =>
          by_cases hov : old = v
          · subst hov
            rw [mergeParams_cons_derived_eq rest stored hp hl]
            exact ih hndr k0 v0 hmr
          · rw [mergeParams_cons_derived_ne rest stored hp hl hov]
            exact ih hndr k0 v0 hmr
        | none =>
          rw [mergeParams_cons_derived_none v rest stored hp hl]
          exact ih hndr k0 v0 hmr
      | tunable =>
        cases hs : (plookup k stored).isSome with
        | true =>
          rw [mergeParams_cons_tunable_present v rest stored hp hs]
          exact ih hndr k0 v0 hmr
        | false =>
          rw [mergeParams_cons_tunable_absent v rest stored hp hs]
          exact ih hndr k0 v0 hmr
      | unrecognized =>
        rw [mergeParams_cons_unrecognized v rest stored hp]
        exact ih hndr k0 v0 hmr

lemma mergeParams_derived_overwrite {pol : String → Policy} {k v old : String}
    (hpol : pol k = .derived) :
    ∀ {ps stored : Params}, (ps.map Prod.fst).Nodup → (k, v) ∈ ps →
      plookup k stored = some old →
      plookup k (mergeParams pol ps stored).1 = some v ∧
      (old ≠ v → PChange.updated k (some old) v ∈ (mergeParams pol ps stored).2) ∧
      (old = v → ∀ c ∈ (mergeParams pol ps stored).2, c.key ≠ k) := by
  intro ps
  induction ps with
  | nil => intro stored _ hm _; simp at hm
  | cons kv rest ih =>
    obtain ⟨k1, v1⟩ := kv
    intro stored hnd hm hl
    simp only [List.map_cons, List.nodup_cons] at hnd
    obtain ⟨hk1nr, hndr⟩ := hnd
    by_cases hk : k1 = k
    · subst hk
      have hv1 : v1 = v := by
        rcases List.mem_cons.mp hm with he | hmr
        · injection he with h1 h2
          exact h2.symm
        · exact absurd (List.mem_map.mpr ⟨(k1, v), hmr, rfl⟩) hk1nr
      subst hv1
      by_cases hov : old = v1
      · subst hov
        rw [mergeParams_cons_derived_eq rest stored hpol hl]
        refine ⟨?_, fun hne => absurd rfl hne, fun _ c hc => ?_⟩
        · rw [mergeParams_lookup_of_not_mem hk1nr, hl]
        · intro hck
          exact hk1nr (hck ▸ mergeParams_change_key hc)
      · rw [mergeParams_cons_derived_ne rest stored hpol hl hov]
        dsimp only
        refine ⟨?_, fun _ => List.mem_cons_self _ _, fun hov' => absurd hov' hov⟩
        rw [mergeParams_lookup_of_not_mem hk1nr, plookup_setParam_self]
    · have hmr : (k, v) ∈ rest := by
        rcases List.mem_cons.mp hm with he | hmr
        · injection he with h1 _
          exact absurd h1.symm hk
        · exact hmr
      cases hp1 : pol k1 with
      | derived =>
        cases hl1 : plookup k1 stored with
        | some old1 =>
          by_cases hov1 : old1 = v1
          · subst hov1
            rw [mergeParams_cons_derived_eq rest stored hp1 hl1]
            exact ih hndr hmr hl
          · rw [mergeParams_cons_derived_ne rest stored hp1 hl1 hov1]
            dsimp only
            have hl' : plookup k (setParam k1 v1 stored) = some old := by
              rw [plookup_setParam_ne v1 hk]; exact hl
            obtain ⟨ih1, ih2, ih3⟩ := ih hndr hmr hl'
            refine ⟨ih1, fun hne => List.mem_cons_of_mem _ (ih2 hne), fun hov' c hc => ?_⟩
            rcases List.mem_cons.mp hc with hc0 | hc1
            · subst hc0; simpa [PChange.key] using hk
            · exact ih3 hov' c hc1
        | none =>
          rw [mergeParams_cons_derived_none v1 rest stored hp1 hl1]
          dsimp only
          have hl' : plookup k (setParam k1 v1 stored) = some old := by
            rw [plookup_setParam_ne v1 hk]; exact hl
          obtain ⟨ih1, ih2, ih3⟩ := ih hndr hmr hl'
          refine ⟨ih1, fun hne => List.mem_cons_of_mem _ (ih2 hne), fun hov' c hc => ?_⟩
          rcases List.mem_cons.mp hc with hc0 | hc1
          · subst hc0; simpa [PChange.key] using hk
          · exact ih3 hov' c hc1
      | tunable =>
        cases hs1 : (plookup k1 stored).isSome with
        | true =>
          rw [mergeParams_cons_tunable_present v1 rest stored hp1 hs1]
          exact ih hndr hmr hl
        | false =>
          rw [mergeParams_cons_tunable_absent v1 rest stored hp1 hs1]
          dsimp only
          have hl' : plookup k (stored ++ [(k1, v1)]) = some old := by
            rw [plookup_append_of_isSome _ (by rw [hl]; rfl)]; exact hl
          obtain ⟨ih1, ih2, ih3⟩ := ih hndr hmr hl'
          refine ⟨ih1, fun hne => List.mem_cons_of_mem _ (ih2 hne), fun hov' c hc => ?_⟩
          rcases List.mem_cons.mp hc with hc0 | hc1
          · subst hc0; simpa [PChange.key] using hk
          · exact ih3 hov' c hc1
      | unrecognized =>
        rw [mergeParams_cons_unrecognized v1 rest stored hp1]
        exact ih hndr hmr hl

lemma mergeVars_synced {srcVars : List (String × Option String)}
    {stored : List (String × Binding)} (h : VarsSynced srcVars stored) :
    mergeVars srcVars stored = (stored, []) := by
  obtain ⟨h1, h2⟩ := h
  have hk : stored.filter (fun nv => (plookup nv.1 srcVars).isSome) = stored :=
    List.filter_eq_self.mpr h1
  have hr : stored.filter (fun nv => !(plookup nv.1 srcVars).isSome) = [] := by
    rw [List.filter_eq_nil_iff]
    intro nv hm
    simp [h1 nv hm]
  have hf : srcVars.filter (fun sv => !(plookup sv.1 stored).isSome) = [] := by
    rw [List.filter_eq_nil_iff]
    intro sv hm
    simp [h2 sv hm]
  simp only [mergeVars]
  rw [hk, hr, hf]
  simp

lemma mergeVars_establishes (srcVars : List (String × Option String))
    (stored : List (String × Binding)) :
    VarsSynced srcVars (mergeVars srcVars stored).1 := by
  constructor
  · intro nv hm
    simp only [mergeVars] at hm
    rcases List.mem_append.mp hm with hmk | hmf
    · exact (List.mem_filter.mp hmk).2
    · obtain ⟨sv, hsv, he⟩ := List.mem_map.mp hmf
      have hsv' : sv ∈ srcVars := List.mem_of_mem_filter hsv
      rw [← he]
      exact plookup_isSome_of_mem (v := sv.2) (by simpa using hsv')
  · intro sv hm
    simp only [mergeVars]
    cases hs : (plookup sv.1 stored).isSome with
    | true =>
      have hkept : plookup sv.1 (stored.filter fun nv => (plookup nv.1 srcVars).isSome)
          = plookup sv.1 stored := by
        apply plookup_filter
        intro b
        exact plookup_isSome_of_mem (v := sv.2) (by simpa using hm)
      rw [plookup_append_of_isSome _ (by rw [hkept]; exact hs), hkept]
      exact hs
    | false =>
      have hnone : plookup sv.1 stored = none := by
        cases hpp : plookup sv.1 stored with
        | none => rfl
        | some w => rw [hpp] at hs; exact Bool.noConfusion hs
      have hkeptnone :
          plookup sv.1 (stored.filter fun nv => (plookup nv.1 srcVars).isSome) = none := by
        rw [plookup_eq_none_iff] at hnone ⊢
        intro hmem
        apply hnone
        obtain ⟨nv, hnv, he⟩ := List.mem_map.mp hmem
        exact List.mem_map.mpr ⟨nv, List.mem_of_mem_filter hnv, he⟩
      rw [plookup_append_of_none _ hkeptnone, plookup_map_keys]
      apply plookup_isSome_of_mem (v := sv.2)
      refine List.mem_filter.mpr ⟨by simpa using hm, ?_⟩
      simp [hs]

lemma mergeVars_kept {srcVars : List (String × Option String)}
    {stored : List (String × Binding)} {x : String} {b : Binding}
    (hsx : (plookup x srcVars).isSome = true) (hst : plookup x stored = some b) :
    plookup x (mergeVars srcVars stored).1 = some b ∧
    ∀ c ∈ (mergeVars srcVars stored).2, c.name ≠ x := by
  constructor
  · simp only [mergeVars]
    have hkept : plookup x (stored.filter fun nv => (plookup nv.1 srcVars).isSome)
        = plookup x stored := plookup_filter _ x (fun v => hsx) stored
    rw [plookup_append_of_isSome _ (by rw [hkept, hst]; rfl), hkept]
    exact hst
  · intro c hc
    simp only [mergeVars] at hc
    rcases List.mem_append.mp hc with hcr | hca
    · obtain ⟨nv, hnv, he⟩ := List.mem_map.mp hcr
      obtain ⟨hnvm, hnvp⟩ := List.mem_filter.mp hnv
      rw [← he]
      simp only [VChange.name]
      intro hex
      rw [hex] at hnvp
      simp [hsx] at hnvp
    · obtain ⟨sv, hsv, he⟩ := List.mem_map.mp hca
      obtain ⟨hsvm, hsvp⟩ := List.mem_filter.mp hsv
      rw [← he]
      simp only [VChange.name]
      intro hex
      rw [hex] at hsvp
      simp [hst] at hsvp

end KevSpec

namespace KevSpec

lemma ParamsSynced_self {pol : String → Policy} {ps : Params}
    (hnd : (ps.map Prod.fst).Nodup) : ParamsSynced pol ps ps :=
  fun _ _ hm => ⟨fun _ => plookup_of_mem_nodup hnd hm, fun _ => plookup_isSome_of_mem hm⟩

lemma VarsSynced_literal (srcVars : List (String × Option String)) :
    VarsSynced srcVars (srcVars.map fun sv => (sv.1, Binding.literal (sv.2.getD ""))) := by
  constructor
  · intro nv hm
    obtain ⟨sv, hsv, he⟩ := List.mem_map.mp hm
    rw [← he]
    exact plookup_isSome_of_mem (v := sv.2) (by simpa using hsv)
  · intro sv hm
    rw [plookup_map_keys]
    exact plookup_isSome_of_mem (v := sv.2) (by simpa using hm)

lemma reconcileStoredServices_synced_stable {σ : Type} (inferS : σ → Option Params)
    (srcVars : σ → List (String × Option String)) (pol : String → Policy)
    (src : List (String × σ)) :
    ∀ stored : List StoredEntity, (∀ e ∈ stored, SvcSynced inferS srcVars pol src e) →
      reconcileStoredServices inferS srcVars pol src stored = some (stored, []) := by
  intro stored
  induction stored with
  | nil => intro _; rfl
  | cons e rest ih =>
    intro hall
    obtain ⟨f, ps, hlf, hif, hparams, hvars⟩ := hall e (List.mem_cons_self _ _)
    have hrest := ih fun e' hm => hall e' (List.mem_cons_of_mem _ hm)
    simp only [reconcileStoredServices, hlf, hif, hrest]
    rw [mergeParams_synced pol ps e.params hparams, mergeVars_synced hvars]
    have he : ({ name := e.name, params := e.params, envVars := e.envVars } : StoredEntity)
        = e := rfl
    simp [he]

lemma reconcileStoredServices_synced_after {σ : Type} (inferS : σ → Option Params)
    (srcVars : σ → List (String × Option String)) (pol : String → Policy)
    (src : List (String × σ))
    (hinf : ∀ f ps, inferS f = some ps → (ps.map Prod.fst).Nodup) :
    ∀ (stored : List StoredEntity) kept cs,
      reconcileStoredServices inferS srcVars pol src stored = some (kept, cs) →
      ∀ e' ∈ kept, SvcSynced inferS srcVars pol src e' := by
  intro stored
  induction stored with
  | nil =>
    intro kept cs h e' hm
    simp only [reconcileStoredServices, Option.some.injEq, Prod.mk.injEq] at h
    rw [← h.1] at hm
    simp at hm
  | cons e rest ih =>
    intro kept cs h e' hm
    simp only [reconcileStoredServices] at h
    split at h
    · split at h
      · exact Option.noConfusion h
      · next es' cs' hr =>
        simp only [Option.some.injEq, Prod.mk.injEq] at h
        rw [← h.1] at hm
        exact ih es' cs' hr e' hm
    · next f hlf =>
      split at h
      · exact Option.noConfusion h
      · next ps hif =>
        split at h
        · exact Option.noConfusion h
        · next es' cs' hr =>
          simp only [Option.some.injEq, Prod.mk.injEq] at h
          rw [← h.1] at hm
          rcases List.mem_cons.mp hm with he' | hm'
          · subst he'
            exact ⟨f, ps, hlf, hif, mergeParams_establishes (hinf f ps hif),
                   mergeVars_establishes _ _⟩
          · exact ih es' cs' hr e' hm'

lemma reconcileStoredServices_kept_names {σ : Type} (inferS : σ → Option Params)
    (srcVars : σ → List (String × Option String)) (pol : String → Policy)
    (src : List (String × σ)) :
    ∀ (stored : List StoredEntity) kept cs,
      reconcileStoredServices inferS srcVars pol src stored = some (kept, cs) →
      ∀ e' ∈ kept, e'.name ∈ stored.map StoredEntity.name := by
  intro stored
  induction stored with
  | nil =>
    intro kept cs h e' hm
    simp only [reconcileStoredServices, Option.some.injEq, Prod.mk.injEq] at h
    rw [← h.1] at hm
    simp at hm
  | cons e rest ih =>
    intro kept cs h e' hm
    simp only [reconcileStoredServices] at h
    split at h
    · split at h
      · exact Option.noConfusion h
      · next es' cs' hr =>
        simp only [Option.some.injEq, Prod.mk.injEq] at h
        rw [← h.1] at hm
        exact List.mem_cons_of_mem _ (ih es' cs' hr e' hm)
    · next f hlf =>
      split at h
      · exact Option.noConfusion h
      · next ps hif =>
        split at h
        · exact Option.noConfusion h
        · next es' cs' hr =>
          simp only [Option.some.injEq, Prod.mk.injEq] at h
          rw [← h.1] at hm
          rcases List.mem_cons.mp hm with he' | hm'
          · subst he'
            exact List.mem_cons_self _ _
          · exact List.mem_cons_of_mem _ (ih es' cs' hr e' hm')

lemma reconcileStoredServices_kept_isSome {σ : Type} (inferS : σ → Option Params)
    (srcVars : σ → List (String × Option String)) (pol : String → Policy)
    (src : List (String × σ)) :
    ∀ (stored : List StoredEntity) kept cs,
      reconcileStoredServices inferS srcVars pol src stored = some (kept, cs) →
      ∀ e' ∈ kept, (plookup e'.name src).isSome = true := by
  intro stored
  induction stored with
  | nil =>
    intro kept cs h e' hm
    simp only [reconcileStoredServices, Option.some.injEq, Prod.mk.injEq] at h
    rw [← h.1] at hm
    simp at hm
  | cons e rest ih =>
    intro kept cs h e' hm
    simp only [reconcileStoredServices] at h
    split at h
    · split at h
      · exact Option.noConfusion h
      · next es' cs' hr =>
        simp only [Option.some.injEq, Prod.mk.injEq] at h
        rw [← h.1] at hm
        exact ih es' cs' hr e' hm
    · next f hlf =>
      split at h
      · exact Option.noConfusion h
      · next ps hif =>
        split at h
        · exact Option.noConfusion h
        · next es' cs' hr =>
          simp only [Option.some.injEq, Prod.mk.injEq] at h
          rw [← h.1] at hm
          rcases List.mem_cons.mp hm with he' | hm'
          · subst he'
            rw [hlf]
            rfl
          · exact ih es' cs' hr e' hm'

lemma reconcileStoredServices_kept_of_mem {σ : Type} (inferS : σ → Option Params)
    (srcVars : σ → List (String × Option String)) (pol : String → Policy)
    (src : List (String × σ)) :
    ∀ (stored : List StoredEntity) kept cs,
      reconcileStoredServices inferS srcVars pol src stored = some (kept, cs) →
      ∀ e ∈ stored, (plookup e.name src).isSome = true →
        ∃ e' ∈ kept, e'.name = e.name := by
  intro stored
  induction stored with
  | nil => intro kept cs h e hm _; simp at hm
  | cons e0 rest ih =>
    intro kept cs h e hm hsome
    simp only [reconcileStoredServices] at h
    split at h
    · next hlf =>
      split at h
      · exact Option.noConfusion h
      · next es' cs' hr =>
        simp only [Option.some.injEq, Prod.mk.injEq] at h
        rcases List.mem_cons.mp hm with he0 | hm'
        · subst he0
          rw [hlf] at hsome
          exact Bool.noConfusion hsome
        · obtain ⟨e', hm'', hn⟩ := ih es' cs' hr e hm' hsome
          exact ⟨e', h.1 ▸ hm'', hn⟩
    · next f hlf =>
      split at h
      · exact Option.noConfusion h
      · next ps hif =>
        split at h
        · exact Option.noConfusion h
        · next es' cs' hr =>
          simp only [Option.some.injEq, Prod.mk.injEq] at h
          rcases List.mem_cons.mp hm with he0 | hm'
          · subst he0
            refine ⟨{ name := e.name, params := (mergeParams pol ps e.params).1,
                      envVars := (mergeVars (srcVars f) e.envVars).1 }, ?_, rfl⟩
            rw [← h.1]
            exact List.mem_cons_self _ _
          · obtain ⟨e', hm'', hn⟩ := ih es' cs' hr e hm' hsome
            refine ⟨e', ?_, hn⟩
            rw [← h.1]
            exact List.mem_cons_of_mem _ hm''

lemma reconcileStoredServices_deleted {σ : Type} (inferS : σ → Option Params)
    (srcVars : σ → List (String × Option String)) (pol : String → Policy)
    (src : List (String × σ)) :
    ∀ (stored : List StoredEntity) kept cs,
      reconcileStoredServices inferS srcVars pol src stored = some (kept, cs) →
      ∀ e ∈ stored, plookup e.name src = none → Change.svcDeleted e.name ∈ cs := by
  intro stored
  induction stored with
  | nil => intro kept cs h e hm _; simp at hm
  | cons e0 rest ih =>
    intro kept cs h e hm hnone
    simp only [reconcileStoredServices] at h
    split at h
    · next hlf =>
      split at h
      · exact Option.noConfusion h
      · next es' cs' hr =>
        simp only [Option.some.injEq, Prod.mk.injEq] at h
        rw [← h.2]
        rcases List.mem_cons.mp hm with he0 | hm'
        · subst he0
          exact List.mem_cons_self _ _
        · exact List.mem_cons_of_mem _ (ih es' cs' hr e hm' hnone)
    · next f hlf =>
      split at h
      · exact Option.noConfusion h
      · next ps hif =>
        split at h
        · exact Option.noConfusion h
        · next es' cs' hr =>
          simp only [Option.some.injEq, Prod.mk.injEq] at h
          rw [← h.2]
          rcases List.mem_cons.mp hm with he0 | hm'
          · subst he0
            rw [hlf] at hnone
            exact Option.noConfusion hnone
          · exact List.mem_append.mpr (Or.inr (ih es' cs' hr e hm' hnone))

lemma reconcileStoredServices_deleted_src {σ : Type} (inferS : σ → Option Params)
    (srcVars : σ → List (String × Option String)) (pol : String → Policy)
    (src : List (String × σ)) :
    ∀ (stored : List StoredEntity) kept cs,
      reconcileStoredServices inferS srcVars pol src stored = some (kept, cs) →
      ∀ m, Change.svcDeleted m ∈ cs → plookup m src = none := by
  intro stored
  induction stored with
  | nil =>
    intro kept cs h m hm
    simp only [reconcileStoredServices, Option.some.injEq, Prod.mk.injEq] at h
    rw [← h.2] at hm
    simp at hm
  | cons e0 rest ih =>
    intro kept cs h m hm
    simp only [reconcileStoredServices] at h
    split at h
    · next hlf =>
      split at h
      · exact Option.noConfusion h
      · next es' cs' hr =>
        simp only [Option.some.injEq, Prod.mk.injEq] at h
        rw [← h.2] at hm
        rcases List.mem_cons.mp hm with he0 | hm'
        · injection he0 with hminj
          rw [hminj]
          exact hlf
        · exact ih es' cs' hr m hm'
    · next f hlf =>
      split at h
      · exact Option.noConfusion h
      · next ps hif =>
        split at h
        · exact Option.noConfusion h
        · next es' cs' hr =>
          simp only [Option.some.injEq, Prod.mk.injEq] at h
          rw [← h.2] at hm
          rcases List.mem_append.mp hm with hm01 | hm2
          · rcases List.mem_append.mp hm01 with hm0 | hm1
            · obtain ⟨pc, _, hpc⟩ := List.mem_map.mp hm0
              cases pc <;> exact Change.noConfusion hpc
            · obtain ⟨vc, _, hvc⟩ := List.mem_map.mp hm1
              cases vc <;> exact Change.noConfusion hvc
          · exact ih es' cs' hr m hm2

lemma reconcileStoredServices_scope {σ : Type} (inferS : σ → Option Params)
    (srcVars : σ → List (String × Option String)) (pol : String → Policy)
    (src : List (String × σ)) :
    ∀ (stored : List StoredEntity) kept cs,
      reconcileStoredServices inferS srcVars pol src stored = some (kept, cs) →
      ∀ c ∈ cs, ∀ n, c.svcScopeName = some n → n ∈ stored.map StoredEntity.name := by
  intro stored
  induction stored with
  | nil =>
    intro kept cs h c hc n _
    simp only [reconcileStoredServices, Option.some.injEq, Prod.mk.injEq] at h
    rw [← h.2] at hc
    simp at hc
  | cons e0 rest ih =>
    intro kept cs h c hc n hscope
    simp only [reconcileStoredServices] at h
    split at h
    · next hlf =>
      split at h
      · exact Option.noConfusion h
      · next es' cs' hr =>
        simp only [Option.some.injEq, Prod.mk.injEq] at h
        rw [← h.2] at hc
        rcases List.mem_cons.mp hc with hc0 | hc1
        · subst hc0
          simp only [Change.svcScopeName, Option.some.injEq] at hscope
          rw [← hscope]
          exact List.mem_cons_self _ _
        · exact List.mem_cons_of_mem _ (ih es' cs' hr c hc1 n hscope)
    · next f hlf =>
      split at h
      · exact Option.noConfusion h
      · next ps hif =>
        split at h
        · exact Option.noConfusion h
        · next es' cs' hr =>
          simp only [Option.some.injEq, Prod.mk.injEq] at h
          rw [← h.2] at hc
          rcases List.mem_append.mp hc with hc01 | hc2
          · rcases List.mem_append.mp hc01 with hc0 | hc1
            · obtain ⟨pc, _, hpc⟩ := List.mem_map.mp hc0
              rw [← hpc] at hscope
              cases pc <;>
                simp only [pchangeToSvc, Change.svcScopeName, Option.some.injEq] at hscope <;>
                (rw [← hscope]; exact List.mem_cons_self _ _)
            · obtain ⟨vc, _, hvc⟩ := List.mem_map.mp hc1
              rw [← hvc] at hscope
              cases vc <;>
                simp only [vchangeToSvc, Change.svcScopeName, Option.some.injEq] at hscope <;>
                (rw [← hscope]; exact List.mem_cons_self _ _)
          · exact List.mem_cons_of_mem _ (ih es' cs' hr c hc2 n hscope)

lemma addServices_mem_names {σ : Type} (inferS : σ → Option Params)
    (srcVars : σ → List (String × Option String)) (names : List String) :
    ∀ (l : List (String × σ)) adds cs, addServices inferS srcVars names l = some (adds, cs) →
      ∀ n f, (n, f) ∈ l → n ∉ names → n ∈ adds.map StoredEntity.name := by
  intro l
  induction l with
  | nil => intro adds cs h n f hm _; simp at hm
  | cons p rest ih =>
    intro adds cs h n f hm hnn
    obtain ⟨n1, f1⟩ := p
    simp only [addServices] at h
    split at h
    · next hmem =>
      rcases List.mem_cons.mp hm with he | hm'
      · injection he with h1 _
        subst h1
        exact absurd hmem hnn
      · exact ih adds cs h n f hm' hnn
    · split at h
      · exact Option.noConfusion h
      · next ps hif =>
        split at h
        · exact Option.noConfusion h
        · next es' cs' hr =>
          simp only [Option.some.injEq, Prod.mk.injEq] at h
          rw [← h.1]
          rcases List.mem_cons.mp hm with he | hm'
          · injection he with h1 _
            subst h1
            exact List.mem_cons_self _ _
          · exact List.mem_cons_of_mem _ (ih es' cs' hr n f hm' hnn)

lemma addServices_not_stored {σ : Type} (inferS : σ → Option Params)
    (srcVars : σ → List (String × Option String)) (names : List String) :
    ∀ (l : List (String × σ)) adds cs, addServices inferS srcVars names l = some (adds, cs) →
      ∀ e' ∈ adds, e'.name ∉ names := by
  intro l
  induction l with
  | nil =>
    intro adds cs h e' hm
    simp only [addServices, Option.some.injEq, Prod.mk.injEq] at h
    rw [← h.1] at hm
    simp at hm
  | cons p rest ih =>
    intro adds cs h e' hm
    obtain ⟨n1, f1⟩ := p
    simp only [addServices] at h
    split at h
    · exact ih adds cs h e' hm
    · next hmem =>
      split at h
      · exact Option.noConfusion h
      · next ps hif =>
        split at h
        · exact Option.noConfusion h
        · next es' cs' hr =>
          simp only [Option.some.injEq, Prod.mk.injEq] at h
          rw [← h.1] at hm
          rcases List.mem_cons.mp hm with he' | hm'
          · subst he'
            exact hmem
          · exact ih es' cs' hr e' hm'

lemma addServices_all_present {σ : Type} (inferS : σ → Option Params)
    (srcVars : σ → List (String × Option String)) (names : List String) :
    ∀ l : List (String × σ), (∀ p ∈ l, p.1 ∈ names) →
      addServices inferS srcVars names l = some ([], []) := by
  intro l
  induction l with
  | nil => intro _; rfl
  | cons p rest ih =>
    intro hall
    obtain ⟨n, f⟩ := p
    simp only [addServices]
    rw [if_pos (hall (n, f) (List.mem_cons_self _ _))]
    exact ih fun p hm => hall p (List.mem_cons_of_mem _ hm)

lemma addServices_synced_after {σ : Type} (inferS : σ → Option Params)
    (srcVars : σ → List (String × Option String)) (pol : String → Policy)
    (names : List String) (src : List (String × σ))
    (hinf : ∀ f ps, inferS f = some ps → (ps.map Prod.fst).Nodup) :
    ∀ l : List (String × σ), (∀ p ∈ l, plookup p.1 src = some p.2) →
      ∀ adds cs, addServices inferS srcVars names l = some (adds, cs) →
        ∀ e' ∈ adds, SvcSynced inferS srcVars pol src e' := by
  intro l
  induction l with
  | nil =>
    intro _ adds cs h e' hm
    simp only [addServices, Option.some.injEq, Prod.mk.injEq] at h
    rw [← h.1] at hm
    simp at hm
  | cons p rest ih =>
    intro hl adds cs h e' hm
    obtain ⟨n, f⟩ := p
    simp only [addServices] at h
    split at h
    · exact ih (fun p hm' => hl p (List.mem_cons_of_mem _ hm')) adds cs h e' hm
    · split at h
      · exact Option.noConfusion h
      · next ps hif =>
        split at h
        · exact Option.noConfusion h
        · next es' cs' hr =>
          simp only [Option.some.injEq, Prod.mk.injEq] at h
          rw [← h.1] at hm
          rcases List.mem_cons.mp hm with he' | hm'
          · subst he'
            exact ⟨f, ps, hl (n, f) (List.mem_cons_self _ _), hif,
                   ParamsSynced_self (hinf f ps hif), VarsSynced_literal _⟩
          · exact ih (fun p hm'' => hl p (List.mem_cons_of_mem _ hm'')) es' cs' hr e' hm'

end KevSpec

namespace KevSpec

lemma reconcileStoredServices_common {σ : Type} (inferS : σ → Option Params)
    (srcVars : σ → List (String × Option String)) (pol : String → Policy)
    (src : List (String × σ)) :
    ∀ (stored : List StoredEntity) kept cs,
      (stored.map StoredEntity.name).Nodup →
      reconcileStoredServices inferS srcVars pol src stored = some (kept, cs) →
      ∀ e ∈ stored, ∀ f ps, plookup e.name src = some f → inferS f = some ps →
        ((∀ e' ∈ kept, e'.name = e.name →
            e'.params = (mergeParams pol ps e.params).1 ∧
            e'.envVars = (mergeVars (srcVars f) e.envVars).1) ∧
         (∃ e' ∈ kept, e'.name = e.name) ∧
         (∀ pc ∈ (mergeParams pol ps e.params).2, pchangeToSvc e.name pc ∈ cs) ∧
         (∀ vc ∈ (mergeVars (srcVars f) e.envVars).2, vchangeToSvc e.name vc ∈ cs) ∧
         (∀ k o w, Change.svcParamUpdated e.name k o w ∈ cs →
            PChange.updated k o w ∈ (mergeParams pol ps e.params).2) ∧
         (∀ k w, Change.svcParamAdded e.name k w ∈ cs →
            PChange.added k w ∈ (mergeParams pol ps e.params).2) ∧
         (∀ x, Change.svcVarAdded e.name x ∈ cs →
            VChange.added x ∈ (mergeVars (srcVars f) e.envVars).2) ∧
         (∀ x, Change.svcVarDeleted e.name x ∈ cs →
            VChange.deleted x ∈ (mergeVars (srcVars f) e.envVars).2)) := by
  intro stored
  induction stored with
  | nil => intro kept cs _ _ e hm; simp at hm
  | cons e0 rest ih =>
    intro kept cs hnd h e hm f ps hf hif
    simp only [List.map_cons, List.nodup_cons] at hnd
    obtain ⟨hnd0, hndr⟩ := hnd
    simp only [reconcileStoredServices] at h
    split at h
    · next hlf =>
      split at h
      · exact Option.noConfusion h
      · next es' cs' hr =>
        simp only [Option.some.injEq, Prod.mk.injEq] at h
        rcases List.mem_cons.mp hm with he0 | hm'
        · rw [he0, hlf] at hf
          exact Option.noConfusion hf
        · obtain ⟨c1, c2, c3, c4, c5, c6, c7, c8⟩ := ih es' cs' hndr hr e hm' f ps hf hif
          rw [← h.1, ← h.2]
          refine ⟨c1, c2, ?_, ?_, ?_, ?_, ?_, ?_⟩
          · exact fun pc hpc => List.mem_cons_of_mem _ (c3 pc hpc)
          · exact fun vc hvc => List.mem_cons_of_mem _ (c4 vc hvc)
          · intro k o w hcm
            rcases List.mem_cons.mp hcm with hc0 | hc1
            · exact Change.noConfusion hc0.symm
            · exact c5 k o w hc1
          · intro k w hcm
            rcases List.mem_cons.mp hcm with hc0 | hc1
            · exact Change.noConfusion hc0.symm
            · exact c6 k w hc1
          · intro x hcm
            rcases List.mem_cons.mp hcm with hc0 | hc1
            · exact Change.noConfusion hc0.symm
            · exact c7 x hc1
          · intro x hcm
            rcases List.mem_cons.mp hcm with hc0 | hc1
            · exact Change.noConfusion hc0.symm
            · exact c8 x hc1
    · next f0 hlf0 =>
      split at h
      · exact Option.noConfusion h
      · next ps0 hif0 =>
        split at h
        · exact Option.noConfusion h
        · next es' cs' hr =>
          simp only [Option.some.injEq, Prod.mk.injEq] at h
          rcases List.mem_cons.mp hm with he0 | hm'
          · subst he0
            rw [hlf0] at hf
            injection hf with hff
            subst hff
            rw [hif0] at hif
            injection hif with hps
            subst hps
            rw [← h.1, ← h.2]
            constructor
            · intro e' hm' hname
              rcases List.mem_cons.mp hm' with he' | hm''
              · subst he'
                exact ⟨rfl, rfl⟩
              · exact absurd (hname ▸ reconcileStoredServices_kept_names inferS srcVars pol
                  src rest es' cs' hr e' hm'') hnd0
            constructor
            · exact ⟨_, List.mem_cons_self _ _, rfl⟩
            constructor
            · intro pc hpc
              exact List.mem_append.mpr (Or.inl (List.mem_append.mpr
                (Or.inl (List.mem_map.mpr ⟨pc, hpc, rfl⟩))))
            constructor
            · intro vc hvc
              exact List.mem_append.mpr (Or.inl (List.mem_append.mpr
                (Or.inr (List.mem_map.mpr ⟨vc, hvc, rfl⟩))))
            constructor
            · intro k o w hcm
              rcases List.mem_append.mp hcm with hc01 | hc2
              · rcases List.mem_append.mp hc01 with hc0 | hc1
                · obtain ⟨pc, hpcm, hpc⟩ := List.mem_map.mp hc0
                  cases pc with
                  | updated k' o' w' =>
                    injection hpc with h1 h2 h3 h4
                    rw [← h2, ← h3, ← h4]
                    exact hpcm
                  | added k' w' => exact Change.noConfusion hpc
                · obtain ⟨vc, _, hvc⟩ := List.mem_map.mp hc1
                  cases vc <;> exact Change.noConfusion hvc
              · have := reconcileStoredServices_scope inferS srcVars pol src rest es' cs' hr
                  _ hc2 e.name rfl
                exact absurd this hnd0
            constructor
            · intro k w hcm
              rcases List.mem_append.mp hcm with hc01 | hc2
              · rcases List.mem_append.mp hc01 with hc0 | hc1
                · obtain ⟨pc, hpcm, hpc⟩ := List.mem_map.mp hc0
                  cases pc with
                  | updated k' o' w' => exact Change.noConfusion hpc
                  | added k' w' =>
                    injection hpc with h1 h2 h3
                    rw [← h2, ← h3]
                    exact hpcm
                · obtain ⟨vc, _, hvc⟩ := List.mem_map.mp hc1
                  cases vc <;> exact Change.noConfusion hvc
              · have := reconcileStoredServices_scope inferS srcVars pol src rest es' cs' hr
                  _ hc2 e.name rfl
                exact absurd this hnd0
            constructor
            · intro x hcm
              rcases List.mem_append.mp hcm with hc01 | hc2
              · rcases List.mem_append.mp hc01 with hc0 | hc1
                · obtain ⟨pc, _, hpc⟩ := List.mem_map.mp hc0
                  cases pc <;> exact Change.noConfusion hpc
                · obtain ⟨vc, hvcm, hvc⟩ := List.mem_map.mp hc1
                  cases vc with
                  | added x' =>
                    injection hvc with h1 h2
                    rw [← h2]
                    exact hvcm
                  | deleted x' => exact Change.noConfusion hvc
              · have := reconcileStoredServices_scope inferS srcVars pol src rest es' cs' hr
                  _ hc2 e.name rfl
                exact absurd this hnd0
            · intro x hcm
              rcases List.mem_append.mp hcm with hc01 | hc2
              · rcases List.mem_append.mp hc01 with hc0 | hc1
                · obtain ⟨pc, _, hpc⟩ := List.mem_map.mp hc0
                  cases pc <;> exact Change.noConfusion hpc
                · obtain ⟨vc, hvcm, hvc⟩ := List.mem_map.mp hc1
                  cases vc with
                  | added x' => exact Change.noConfusion hvc
                  | deleted x' =>
                    injection hvc with h1 h2
                    rw [← h2]
                    exact hvcm
              · have := reconcileStoredServices_scope inferS srcVars pol src rest es' cs' hr
                  _ hc2 e.name rfl
                exact absurd this hnd0
          · have hne : e0.name ≠ e.name := by
              intro hee
              exact hnd0 (hee ▸ List.mem_map.mpr ⟨e, hm', rfl⟩)
            obtain ⟨c1, c2, c3, c4, c5, c6, c7, c8⟩ := ih es' cs' hndr hr e hm' f ps hf hif
            rw [← h.1, ← h.2]
            constructor
            · intro e' hm'' hname
              rcases List.mem_cons.mp hm'' with he' | hm'''
              · rw [he'] at hname
                exact absurd hname hne
              · exact c1 e' hm''' hname
            constructor
            · obtain ⟨e', hm'', hname⟩ := c2
              exact ⟨e', List.mem_cons_of_mem _ hm'', hname⟩
            constructor
            · exact fun pc hpc => List.mem_append.mpr (Or.inr (c3 pc hpc))
            constructor
            · exact fun vc hvc => List.mem_append.mpr (Or.inr (c4 vc hvc))
            constructor
            · intro k o w hcm
              rcases List.mem_append.mp hcm with hc01 | hc2
              · rcases List.mem_append.mp hc01 with hc0 | hc1
                · obtain ⟨pc, _, hpc⟩ := List.mem_map.mp hc0
                  cases pc with
                  | updated k' o' w' =>
                    injection hpc with h1 _ _ _
                    exact absurd h1 hne
                  | added k' w' => exact Change.noConfusion hpc
                · obtain ⟨vc, _, hvc⟩ := List.mem_map.mp hc1
                  cases vc <;> exact Change.noConfusion hvc
              · exact c5 k o w hc2
            constructor
            · intro k w hcm
              rcases List.mem_append.mp hcm with hc01 | hc2
              · rcases List.mem_append.mp hc01 with hc0 | hc1
                · obtain ⟨pc, _, hpc⟩ := List.mem_map.mp hc0
                  cases pc with
                  | updated k' o' w' => exact Change.noConfusion hpc
                  | added k' w' =>
                    injection hpc with h1 _ _
                    exact absurd h1 hne
                · obtain ⟨vc, _, hvc⟩ := List.mem_map.mp hc1
                  cases vc <;> exact Change.noConfusion hvc
              · exact c6 k w hc2
            constructor
            · intro x hcm
              rcases List.mem_append.mp hcm with hc01 | hc2
              · rcases List.mem_append.mp hc01 with hc0 | hc1
                · obtain ⟨pc, _, hpc⟩ := List.mem_map.mp hc0
                  cases pc <;> exact Change.noConfusion hpc
                · obtain ⟨vc, _, hvc⟩ := List.mem_map.mp hc1
                  cases vc with
                  | added x' =>
                    injection hvc with h1 _
                    exact absurd h1 hne
                  | deleted x' => exact Change.noConfusion hvc
              · exact c7 x hc2
            · intro x hcm
              rcases List.mem_append.mp hcm with hc01 | hc2
              · rcases List.mem_append.mp hc01 with hc0 | hc1
                · obtain ⟨pc, _, hpc⟩ := List.mem_map.mp hc0
                  cases pc <;> exact Change.noConfusion hpc
                · obtain ⟨vc, _, hvc⟩ := List.mem_map.mp hc1
                  cases vc with
                  | added x' => exact Change.noConfusion hvc
                  | deleted x' =>
                    injection hvc with h1 _
                    exact absurd h1 hne
              · exact c8 x hc2

end KevSpec

namespace KevSpec

lemma reconcileStoredVolumes_synced_stable {τ : Type} (inferV : τ → Option Params)
    (pol : String → Policy) (src : List (String × τ)) :
    ∀ stored : List StoredVolume, (∀ e ∈ stored, VolSynced inferV pol src e) →
      reconcileStoredVolumes inferV pol src stored = some (stored, []) := by
  intro stored
  induction stored with
  | nil => intro _; rfl
  | cons e rest ih =>
    intro hall
    obtain ⟨f, ps, hlf, hif, hparams⟩ := hall e (List.mem_cons_self _ _)
    have hrest := ih fun e' hm => hall e' (List.mem_cons_of_mem _ hm)
    simp only [reconcileStoredVolumes, hlf, hif, hrest]
    rw [mergeParams_synced pol ps e.params hparams]
    have he : ({ name := e.name, params := e.params } : StoredVolume) = e := rfl
    simp [he]

lemma reconcileStoredVolumes_synced_after {τ : Type} (inferV : τ → Option Params)
    (pol : String → Policy) (src : List (String × τ))
    (hinf : ∀ f ps, inferV f = some ps → (ps.map Prod.fst).Nodup) :
    ∀ (stored : List StoredVolume) kept cs,
      reconcileStoredVolumes inferV pol src stored = some (kept, cs) →
      ∀ e' ∈ kept, VolSynced inferV pol src e' := by
  intro stored
  induction stored with
  | nil =>
    intro kept cs h e' hm
    simp only [reconcileStoredVolumes, Option.some.injEq, Prod.mk.injEq] at h
    rw [← h.1] at hm
    simp at hm
  | cons e rest ih =>
    intro kept cs h e' hm
    simp only [reconcileStoredVolumes] at h
    split at h
    · split at h
      · exact Option.noConfusion h
      · next es' cs' hr =>
        simp only [Option.some.injEq, Prod.mk.injEq] at h
        rw [← h.1] at hm
        exact ih es' cs' hr e' hm
    · next f hlf =>
      split at h
      · exact Option.noConfusion h
      · next ps hif =>
        split at h
        · exact Option.noConfusion h
        · next es' cs' hr =>
          simp only [Option.some.injEq, Prod.mk.injEq] at h
          rw [← h.1] at hm
          rcases List.mem_cons.mp hm with he' | hm'
          · subst he'
            exact ⟨f, ps, hlf, hif, mergeParams_establishes (hinf f ps hif)⟩
          · exact ih es' cs' hr e' hm'

lemma reconcileStoredVolumes_kept_names {τ : Type} (inferV : τ → Option Params)
    (pol : String → Policy) (src : List (String × τ)) :
    ∀ (stored : List StoredVolume) kept cs,
      reconcileStoredVolumes inferV pol src stored = some (kept, cs) →
      ∀ e' ∈ kept, e'.name ∈ stored.map StoredVolume.name := by
  intro stored
  induction stored with
  | nil =>
    intro kept cs h e' hm
    simp only [reconcileStoredVolumes, Option.some.injEq, Prod.mk.injEq] at h
    rw [← h.1] at hm
    simp at hm
  | cons e rest ih =>
    intro kept cs h e' hm
    simp only [reconcileStoredVolumes] at h
    split at h
    · split at h
      · exact Option.noConfusion h
      · next es' cs' hr =>
        simp only [Option.some.injEq, Prod.mk.injEq] at h
        rw [← h.1] at hm
        exact List.mem_cons_of_mem _ (ih es' cs' hr e' hm)
    · next f hlf =>
      split at h
      · exact Option.noConfusion h
      · next ps hif =>
        split at h
        · exact Option.noConfusion h
        · next es' cs' hr =>
          simp only [Option.some.injEq, Prod.mk.injEq] at h
          rw [← h.1] at hm
          rcases List.mem_cons.mp hm with he' | hm'
          · subst he'
            exact List.mem_cons_self _ _
          · exact List.mem_cons_of_mem _ (ih es' cs' hr e' hm')

lemma reconcileStoredVolumes_kept_isSome {τ : Type} (inferV : τ → Option Params)
    (pol : String → Policy) (src : List (String × τ)) :
    ∀ (stored : List StoredVolume) kept cs,
      reconcileStoredVolumes inferV pol src stored = some (kept, cs) →
      ∀ e' ∈ kept, (plookup e'.name src).isSome = true := by
  intro stored
  induction stored with
  | nil =>
    intro kept cs h e' hm
    simp only [reconcileStoredVolumes, Option.some.injEq, Prod.mk.injEq] at h
    rw [← h.1] at hm
    simp at hm
  | cons e rest ih =>
    intro kept cs h e' hm
    simp only [reconcileStoredVolumes] at h
    split at h
    · split at h
      · exact Option.noConfusion h
      · next es' cs' hr =>
        simp only [Option.some.injEq, Prod.mk.injEq] at h
        rw [← h.1] at hm
        exact ih es' cs' hr e' hm
    · next f hlf =>
      split at h
      · exact Option.noConfusion h
      · next ps hif =>
        split at h
        · exact Option.noConfusion h
        · next es' cs' hr =>
          simp only [Option.some.injEq, Prod.mk.injEq] at h
          rw [← h.1] at hm
          rcases List.mem_cons.mp hm with he' | hm'
          · subst he'
            rw [hlf]
            rfl
          · exact ih es' cs' hr e' hm'

lemma reconcileStoredVolumes_kept_of_mem {τ : Type} (inferV : τ → Option Params)
    (pol : String → Policy) (src : List (String × τ)) :
    ∀ (stored : List StoredVolume) kept cs,
      reconcileStoredVolumes inferV pol src stored = some (kept, cs) →
      ∀ e ∈ stored, (plookup e.name src).isSome = true →
        ∃ e' ∈ kept, e'.name = e.name := by
  intro stored
  induction stored with
  | nil => intro kept cs h e hm _; simp at hm
  | cons e0 rest ih =>
    intro kept cs h e hm hsome
    simp only [reconcileStoredVolumes] at h
    split at h
    · next hlf =>
      split at h
      · exact Option.noConfusion h
      · next es' cs' hr =>
        simp only [Option.some.injEq, Prod.mk.injEq] at h
        rcases List.mem_cons.mp hm with he0 | hm'
        · subst he0
          rw [hlf] at hsome
          exact Bool.noConfusion hsome
        · obtain ⟨e', hm'', hn⟩ := ih es' cs' hr e hm' hsome
          exact ⟨e', h.1 ▸ hm'', hn⟩
    · next f hlf =>
      split at h
      · exact Option.noConfusion h
      · next ps hif =>
        split at h
        · exact Option.noConfusion h
        · next es' cs' hr =>
          simp only [Option.some.injEq, Prod.mk.injEq] at h
          rcases List.mem_cons.mp hm with he0 | hm'
          · subst he0
            refine ⟨{ name := e.name, params := (mergeParams pol ps e.params).1 }, ?_, rfl⟩
            rw [← h.1]
            exact List.mem_cons_self _ _
          · obtain ⟨e', hm'', hn⟩ := ih es' cs' hr e hm' hsome
            refine ⟨e', ?_, hn⟩
            rw [← h.1]
            exact List.mem_cons_of_mem _ hm''

lemma reconcileStoredVolumes_deleted {τ : Type} (inferV : τ → Option Params)
    (pol : String → Policy) (src : List (String × τ)) :
    ∀ (stored : List StoredVolume) kept cs,
      reconcileStoredVolumes inferV pol src stored = some (kept, cs) →
      ∀ e ∈ stored, plookup e.name src = none → Change.volDeleted e.name ∈ cs := by
  intro stored
  induction stored with
  | nil => intro kept cs h e hm _; simp at hm
  | cons e0 rest ih =>
    intro kept cs h e hm hnone
    simp only [reconcileStoredVolumes] at h
    split at h
    · next hlf =>
      split at h
      · exact Option.noConfusion h
      · next es' cs' hr =>
        simp only [Option.some.injEq, Prod.mk.injEq] at h
        rw [← h.2]
        rcases List.mem_cons.mp hm with he0 | hm'
        · subst he0
          exact List.mem_cons_self _ _
        · exact List.mem_cons_of_mem _ (ih es' cs' hr e hm' hnone)
    · next f hlf =>
      split at h
      · exact Option.noConfusion h
      · next ps hif =>
        split at h
        · exact Option.noConfusion h
        · next es' cs' hr =>
          simp only [Option.some.injEq, Prod.mk.injEq] at h
          rw [← h.2]
          rcases List.mem_cons.mp hm with he0 | hm'
          · subst he0
            rw [hlf] at hnone
            exact Option.noConfusion hnone
          · exact List.mem_append.mpr (Or.inr (ih es' cs' hr e hm' hnone))

lemma reconcileStoredVolumes_deleted_src {τ : Type} (inferV : τ → Option Params)
    (pol : String → Policy) (src : List (String × τ)) :
    ∀ (stored : List StoredVolume) kept cs,
      reconcileStoredVolumes inferV pol src stored = some (kept, cs) →
      ∀ m, Change.volDeleted m ∈ cs → plookup m src = none := by
  intro stored
  induction stored with
  | nil =>
    intro kept cs h m hm
    simp only [reconcileStoredVolumes, Option.some.injEq, Prod.mk.injEq] at h
    rw [← h.2] at hm
    simp at hm
  | cons e0 rest ih =>
    intro kept cs h m hm
    simp only [reconcileStoredVolumes] at h
    split at h
    · next hlf =>
      split at h
      · exact Option.noConfusion h
      · next es' cs' hr =>
        simp only [Option.some.injEq, Prod.mk.injEq] at h
        rw [← h.2] at hm
        rcases List.mem_cons.mp hm with he0 | hm'
        · injection he0 with hminj
          rw [hminj]
          exact hlf
        · exact ih es' cs' hr m hm'
    · next f hlf =>
      split at h
      · exact Option.noConfusion h
      · next ps hif =>
        split at h
        · exact Option.noConfusion h
        · next es' cs' hr =>
          simp only [Option.some.injEq, Prod.mk.injEq] at h
          rw [← h.2] at hm
          rcases List.mem_append.mp hm with hm0 | hm2
          · obtain ⟨pc, _, hpc⟩ := List.mem_map.mp hm0
            cases pc <;> exact Change.noConfusion hpc
          · exact ih es' cs' hr m hm2

lemma reconcileStoredVolumes_scope {τ : Type} (inferV : τ → Option Params)
    (pol : String → Policy) (src : List (String × τ)) :
    ∀ (stored : List StoredVolume) kept cs,
      reconcileStoredVolumes inferV pol src stored = some (kept, cs) →
      ∀ c ∈ cs, ∀ n, c.volScopeName = some n → n ∈ stored.map StoredVolume.name := by
  intro stored
  induction stored with
  | nil =>
    intro kept cs h c hc n _
    simp only [reconcileStoredVolumes, Option.some.injEq, Prod.mk.injEq] at h
    rw [← h.2] at hc
    simp at hc
  | cons e0 rest ih =>
    intro kept cs h c hc n hscope
    simp only [reconcileStoredVolumes] at h
    split at h
    · next hlf =>
      split at h
      · exact Option.noConfusion h
      · next es' cs' hr =>
        simp only [Option.some.injEq, Prod.mk.injEq] at h
        rw [← h.2] at hc
        rcases List.mem_cons.mp hc with hc0 | hc1
        · subst hc0
          simp only [Change.volScopeName, Option.some.injEq] at hscope
          rw [← hscope]
          exact List.mem_cons_self _ _
        · exact List.mem_cons_of_mem _ (ih es' cs' hr c hc1 n hscope)
    · next f hlf =>
      split at h
      · exact Option.noConfusion h
      · next ps hif =>
        split at h
        · exact Option.noConfusion h
        · next es' cs' hr =>
          simp only [Option.some.injEq, Prod.mk.injEq] at h
          rw [← h.2] at hc
          rcases List.mem_append.mp hc with hc0 | hc2
          · obtain ⟨pc, _, hpc⟩ := List.mem_map.mp hc0
            rw [← hpc] at hscope
            cases pc <;>
              simp only [pchangeToVol, Change.volScopeName, Option.some.injEq] at hscope <;>
              (rw [← hscope]; exact List.mem_cons_self _ _)
          · exact List.mem_cons_of_mem _ (ih es' cs' hr c hc2 n hscope)

lemma addVolumes_mem_names {τ : Type} (inferV : τ → Option Params) (names : List String) :
    ∀ (l : List (String × τ)) adds cs, addVolumes inferV names l = some (adds, cs) →
      ∀ n f, (n, f) ∈ l → n ∉ names → n ∈ adds.map StoredVolume.name := by
  intro l
  induction l with
  | nil => intro adds cs h n f hm _; simp at hm
  | cons p rest ih =>
    intro adds cs h n f hm hnn
    obtain ⟨n1, f1⟩ := p
    simp only [addVolumes] at h
    split at h
    · next hmem =>
      rcases List.mem_cons.mp hm with he | hm'
      · injection he with h1 _
        subst h1
        exact absurd hmem hnn
      · exact ih adds cs h n f hm' hnn
    · split at h
      · exact Option.noConfusion h
      · next ps hif =>
        split at h
        · exact Option.noConfusion h
        · next es' cs' hr =>
          simp only [Option.some.injEq, Prod.mk.injEq] at h
          rw [← h.1]
          rcases List.mem_cons.mp hm with he | hm'
          · injection he with h1 _
            subst h1
            exact List.mem_cons_self _ _
          · exact List.mem_cons_of_mem _ (ih es' cs' hr n f hm' hnn)

lemma addVolumes_not_stored {τ : Type} (inferV : τ → Option Params) (names : List String) :
    ∀ (l : List (String × τ)) adds cs, addVolumes inferV names l = some (adds, cs) →
      ∀ e' ∈ adds, e'.name ∉ names := by
  intro l
  induction l with
  | nil =>
    intro adds cs h e' hm
    simp only [addVolumes, Option.some.injEq, Prod.mk.injEq] at h
    rw [← h.1] at hm
    simp at hm
  | cons p rest ih =>
    intro adds cs h e' hm
    obtain ⟨n1, f1⟩ := p
    simp only [addVolumes] at h
    split at h
    · exact ih adds cs h e' hm
    · next hmem =>
      split at h
      · exact Option.noConfusion h
      · next ps hif =>
        split at h
        · exact Option.noConfusion h
        · next es' cs' hr =>
          simp only [Option.some.injEq, Prod.mk.injEq] at h
          rw [← h.1] at hm
          rcases List.mem_cons.mp hm with he' | hm'
          · subst he'
            exact hmem
          · exact ih es' cs' hr e' hm'

lemma addVolumes_all_present {τ : Type} (inferV : τ → Option Params) (names : List String) :
    ∀ l : List (String × τ), (∀ p ∈ l, p.1 ∈ names) →
      addVolumes inferV names l = some ([], []) := by
  intro l
  induction l with
  | nil => intro _; rfl
  | cons p rest ih =>
    intro hall
    obtain ⟨n, f⟩ := p
    simp only [addVolumes]
    rw [if_pos (hall (n, f) (List.mem_cons_self _ _))]
    exact ih fun p hm => hall p (List.mem_cons_of_mem _ hm)

lemma addVolumes_synced_after {τ : Type} (inferV : τ → Option Params)
    (pol : String → Policy) (names : List String) (src : List (String × τ))
    (hinf : ∀ f ps, inferV f = some ps → (ps.map Prod.fst).Nodup) :
    ∀ l : List (String × τ), (∀ p ∈ l, plookup p.1 src = some p.2) →
      ∀ adds cs, addVolumes inferV names l = some (adds, cs) →
        ∀ e' ∈ adds, VolSynced inferV pol src e' := by
  intro l
  induction l with
  | nil =>
    intro _ adds cs h e' hm
    simp only [addVolumes, Option.some.injEq, Prod.mk.injEq] at h
    rw [← h.1] at hm
    simp at hm
  | cons p rest ih =>
    intro hl adds cs h e' hm
    obtain ⟨n, f⟩ := p
    simp only [addVolumes] at h
    split at h
    · exact ih (fun p hm' => hl p (List.mem_cons_of_mem _ hm')) adds cs h e' hm
    · split at h
      · exact Option.noConfusion h
      · next ps hif =>
        split at h
        · exact Option.noConfusion h
        · next es' cs' hr =>
          simp only [Option.some.injEq, Prod.mk.injEq] at h
          rw [← h.1] at hm
          rcases List.mem_cons.mp hm with he' | hm'
          · subst he'
            exact ⟨f, ps, hl (n, f) (List.mem_cons_self _ _), hif,
                   ParamsSynced_self (hinf f ps hif)⟩
          · exact ih (fun p hm'' => hl p (List.mem_cons_of_mem _ hm'')) es' cs' hr e' hm'

end KevSpec

namespace KevSpec

lemma plookup_mem {α : Type} {k : String} {v : α} :
    ∀ {l : List (String × α)}, plookup k l = some v → (k, v) ∈ l := by
  intro l
  induction l with
  | nil => intro h; exact Option.noConfusion h
  | cons p rest ih =>
    intro h
    obtain ⟨k', v'⟩ := p
    rw [plookup_cons] at h
    split at h
    · next hk =>
      injection h with hv
      rw [← hk, hv]
      exact List.mem_cons_self _ _
    · exact List.mem_cons_of_mem _ (ih h)

lemma reconcileStoredServices_infer_some {σ : Type} (inferS : σ → Option Params)
    (srcVars : σ → List (String × Option String)) (pol : String → Policy)
    (src : List (String × σ)) :
    ∀ (stored : List StoredEntity) kept cs,
      reconcileStoredServices inferS srcVars pol src stored = some (kept, cs) →
      ∀ e ∈ stored, ∀ f, plookup e.name src = some f → ∃ ps, inferS f = some ps := by
  intro stored
  induction stored with
  | nil => intro kept cs h e hm; simp at hm
  | cons e0 rest ih =>
    intro kept cs h e hm f hf
    simp only [reconcileStoredServices] at h
    split at h
    · next hlf =>
      split at h
      · exact Option.noConfusion h
      · next es' cs' hr =>
        rcases List.mem_cons.mp hm with he0 | hm'
        · rw [he0, hlf] at hf
          exact Option.noConfusion hf
        · exact ih es' cs' hr e hm' f hf
    · next f0 hlf0 =>
      split at h
      · exact Option.noConfusion h
      · next ps hif0 =>
        split at h
        · exact Option.noConfusion h
        · next es' cs' hr =>
          rcases List.mem_cons.mp hm with he0 | hm'
          · rw [he0, hlf0] at hf
            injection hf with hff
            exact ⟨ps, hff ▸ hif0⟩
          · exact ih es' cs' hr e hm' f hf

lemma reconcileStoredVolumes_infer_some {τ : Type} (inferV : τ → Option Params)
    (pol : String → Policy) (src : List (String × τ)) :
    ∀ (stored : List StoredVolume) kept cs,
      reconcileStoredVolumes inferV pol src stored = some (kept, cs) →
      ∀ e ∈ stored, ∀ f, plookup e.name src = some f → ∃ ps, inferV f = some ps := by
  intro stored
  induction stored with
  | nil => intro kept cs h e hm; simp at hm
  | cons e0 rest ih =>
    intro kept cs h e hm f hf
    simp only [reconcileStoredVolumes] at h
    split at h
    · next hlf =>
      split at h
      · exact Option.noConfusion h
      · next es' cs' hr =>
        rcases List.mem_cons.mp hm with he0 | hm'
        · rw [he0, hlf] at hf
          exact Option.noConfusion hf
        · exact ih es' cs' hr e hm' f hf
    · next f0 hlf0 =>
      split at h
      · exact Option.noConfusion h
      · next ps hif0 =>
        split at h
        · exact Option.noConfusion h
        · next es' cs' hr =>
          rcases List.mem_cons.mp hm with he0 | hm'
          · rw [he0, hlf0] at hf
            injection hf with hff
            exact ⟨ps, hff ▸ hif0⟩
          · exact ih es' cs' hr e hm' f hf

lemma reconcileStoredVolumes_common {τ : Type} (inferV : τ → Option Params)
    (pol : String → Policy) (src : List (String × τ)) :
    ∀ (stored : List StoredVolume) kept cs,
      (stored.map StoredVolume.name).Nodup →
      reconcileStoredVolumes inferV pol src stored = some (kept, cs) →
      ∀ e ∈ stored, ∀ f ps, plookup e.name src = some f → inferV f = some ps →
        ((∀ e' ∈ kept, e'.name = e.name →
            e'.params = (mergeParams pol ps e.params).1) ∧
         (∃ e' ∈ kept, e'.name = e.name) ∧
         (∀ pc ∈ (mergeParams pol ps e.params).2, pchangeToVol e.name pc ∈ cs) ∧
         (∀ k o w, Change.volParamUpdated e.name k o w ∈ cs →
            PChange.updated k o w ∈ (mergeParams pol ps e.params).2) ∧
         (∀ k w, Change.volParamAdded e.name k w ∈ cs →
            PChange.added k w ∈ (mergeParams pol ps e.params).2)) := by
  intro stored
  induction stored with
  | nil => intro kept cs _ _ e hm; simp at hm
  | cons e0 rest ih =>
    intro kept cs hnd h e hm f ps hf hif
    simp only [List.map_cons, List.nodup_cons] at hnd
    obtain ⟨hnd0, hndr⟩ := hnd
    simp only [reconcileStoredVolumes] at h
    split at h
    · next hlf =>
      split at h
      · exact Option.noConfusion h
      · next es' cs' hr =>
        simp only [Option.some.injEq, Prod.mk.injEq] at h
        rcases List.mem_cons.mp hm with he0 | hm'
        · rw [he0, hlf] at hf
          exact Option.noConfusion hf
        · obtain ⟨c1, c2, c3, c4, c5⟩ := ih es' cs' hndr hr e hm' f ps hf hif
          rw [← h.1, ← h.2]
          refine ⟨c1, c2, ?_, ?_, ?_⟩
          · exact fun pc hpc => List.mem_cons_of_mem _ (c3 pc hpc)
          · intro k o w hcm
            rcases List.mem_cons.mp hcm with hc0 | hc1
            · exact Change.noConfusion hc0.symm
            · exact c4 k o w hc1
          · intro k w hcm
            rcases List.mem_cons.mp hcm with hc0 | hc1
            · exact Change.noConfusion hc0.symm
            · exact c5 k w hc1
    · next f0 hlf0 =>
      split at h
      · exact Option.noConfusion h
      · next ps0 hif0 =>
        split at h
        · exact Option.noConfusion h
        · next es' cs' hr =>
          simp only [Option.some.injEq, Prod.mk.injEq] at h
          rcases List.mem_cons.mp hm with he0 | hm'
          · subst he0
            rw [hlf0] at hf
            injection hf with hff
            subst hff
            rw [hif0] at hif
            injection hif with hps
            subst hps
            rw [← h.1, ← h.2]
            constructor
            · intro e' hm' hname
              rcases List.mem_cons.mp hm' with he' | hm''
              · subst he'
                exact rfl
              · exact absurd (hname ▸ reconcileStoredVolumes_kept_names inferV pol
                  src rest es' cs' hr e' hm'') hnd0
            constructor
            · exact ⟨_, List.mem_cons_self _ _, rfl⟩
            constructor
            · intro pc hpc
              exact List.mem_append.mpr (Or.inl (List.mem_map.mpr ⟨pc, hpc, rfl⟩))
            constructor
            · intro k o w hcm
              rcases List.mem_append.mp hcm with hc0 | hc2
              · obtain ⟨pc, hpcm, hpc⟩ := List.mem_map.mp hc0
                cases pc with
                | updated k' o' w' =>
                  injection hpc with h1 h2 h3 h4
                  rw [← h2, ← h3, ← h4]
                  exact hpcm
                | added k' w' => exact Change.noConfusion hpc
              · have := reconcileStoredVolumes_scope inferV pol src rest es' cs' hr
                  _ hc2 e.name rfl
                exact absurd this hnd0
            · intro k w hcm
              rcases List.mem_append.mp hcm with hc0 | hc2
              · obtain ⟨pc, hpcm, hpc⟩ := List.mem_map.mp hc0
                cases pc with
                | updated k' o' w' => exact Change.noConfusion hpc
                | added k' w' =>
                  injection hpc with h1 h2 h3
                  rw [← h2, ← h3]
                  exact hpcm
              · have := reconcileStoredVolumes_scope inferV pol src rest es' cs' hr
                  _ hc2 e.name rfl
                exact absurd this hnd0
          · have hne : e0.name ≠ e.name := by
              intro hee
              exact hnd0 (hee ▸ List.mem_map.mpr ⟨e, hm', rfl⟩)
            obtain ⟨c1, c2, c3, c4, c5⟩ := ih es' cs' hndr hr e hm' f ps hf hif
            rw [← h.1, ← h.2]
            constructor
            · intro e' hm'' hname
              rcases List.mem_cons.mp hm'' with he' | hm'''
              · rw [he'] at hname
                exact absurd hname hne
              · exact c1 e' hm''' hname
            constructor
            · obtain ⟨e', hm'', hname⟩ := c2
              exact ⟨e', List.mem_cons_of_mem _ hm'', hname⟩
            constructor
            · exact fun pc hpc => List.mem_append.mpr (Or.inr (c3 pc hpc))
            constructor
            · intro k o w hcm
              rcases List.mem_append.mp hcm with hc0 | hc2
              · obtain ⟨pc, _, hpc⟩ := List.mem_map.mp hc0
                cases pc with
                | updated k' o' w' =>
                  injection hpc with h1 _ _ _
                  exact absurd h1 hne
                | added k' w' => exact Change.noConfusion hpc
              · exact c4 k o w hc2
            · intro k w hcm
              rcases List.mem_append.mp hcm with hc0 | hc2
              · obtain ⟨pc, _, hpc⟩ := List.mem_map.mp hc0
                cases pc with
                | updated k' o' w' => exact Change.noConfusion hpc
                | added k' w' =>
                  injection hpc with h1 _ _
                  exact absurd h1 hne
              · exact c5 k w hc2

end KevSpec

namespace KevSpec

lemma rep_mem_cases {vch chS chAS chV chAV : List Change} {c : Change}
    (h : c ∈ vch ++ chS ++ chAS ++ chV ++ chAV) :
    c ∈ vch ∨ c ∈ chS ∨ c ∈ chAS ∨ c ∈ chV ∨ c ∈ chAV := by
  rcases List.mem_append.mp h with h4 | h5
  · rcases List.mem_append.mp h4 with h3 | hV
    · rcases List.mem_append.mp h3 with h2 | hAS
      · rcases List.mem_append.mp h2 with hv | hS
        · exact Or.inl hv
        · exact Or.inr (Or.inl hS)
      · exact Or.inr (Or.inr (Or.inl hAS))
    · exact Or.inr (Or.inr (Or.inr (Or.inl hV)))
  · exact Or.inr (Or.inr (Or.inr (Or.inr h5)))

lemma rep_mem_of_chS {vch chS chAS chV chAV : List Change} {c : Change} (h : c ∈ chS) :
    c ∈ vch ++ chS ++ chAS ++ chV ++ chAV :=
  List.mem_append.mpr (Or.inl (List.mem_append.mpr (Or.inl (List.mem_append.mpr
    (Or.inl (List.mem_append.mpr (Or.inr h)))))))

lemma rep_mem_of_chV {vch chS chAS chV chAV : List Change} {c : Change} (h : c ∈ chV) :
    c ∈ vch ++ chS ++ chAS ++ chV ++ chAV :=
  List.mem_append.mpr (Or.inl (List.mem_append.mpr (Or.inr h)))

lemma mem_versionCh {p : Prop} [Decidable p] {o n : String} {c : Change}
    (h : c ∈ (if p then ([] : List Change) else [Change.versionUpdated o n])) :
    c = Change.versionUpdated o n := by
  split at h
  · simp at h
  · simpa using h

/-- C4: reconciliation deletes an Entity from the Override Store exactly when
no same-kind same-name Entity exists in the Source Model; every such Entity
is removed and reported as deleted with its name, every deletion entry names
an Entity absent from the Source Model, and no Entity still present in the
Source Model is deleted. -/
theorem entity_deletion {σ τ : Type} (inferS : σ → Option Params) (inferV : τ → Option Params)
    (srcVars : σ → List (String × Option String)) (pol : String → Policy)
    (src : SourceModel σ τ) (store store' : OverrideStore) (rep : List Change)
    (h : reconcileEnv inferS inferV srcVars pol src store = some (store', rep)) :
    (∀ e ∈ store.services,
       (plookup e.name src.services = none →
          Change.svcDeleted e.name ∈ rep ∧ ∀ e' ∈ store'.services, e'.name ≠ e.name) ∧
       ((plookup e.name src.services).isSome = true →
          ∃ e' ∈ store'.services, e'.name = e.name)) ∧
    (∀ m, Change.svcDeleted m ∈ rep → plookup m src.services = none) ∧
    (∀ e ∈ store.volumes,
       (plookup e.name src.volumes = none →
          Change.volDeleted e.name ∈ rep ∧ ∀ e' ∈ store'.volumes, e'.name ≠ e.name) ∧
       ((plookup e.name src.volumes).isSome = true →
          ∃ e' ∈ store'.volumes, e'.name = e.name)) ∧
    (∀ m, Change.volDeleted m ∈ rep → plookup m src.volumes = none) := by
  obtain ⟨keptS, chS, addS, chAS, keptV, chV, addV, chAV, h1, h2, h3, h4, hst, hrep⟩ :=
    reconcileEnv_eq inferS inferV srcVars pol src store store' rep h
  subst hst hrep
  refine ⟨?_, ?_, ?_, ?_⟩
  · intro e hm
    constructor
    · intro hnone
      constructor
      · exact rep_mem_of_chS
          (reconcileStoredServices_deleted inferS srcVars pol src.services
            store.services keptS chS h1 e hm hnone)
      · intro e' hm' hne
        rcases List.mem_append.mp hm' with hmk | hma
        · have := reconcileStoredServices_kept_isSome inferS srcVars pol src.services
            store.services keptS chS h1 e' hmk
          rw [hne, hnone] at this
          exact Bool.noConfusion this
        · have := addServices_not_stored inferS srcVars _ src.services addS chAS h2 e' hma
          exact this (hne ▸ List.mem_map.mpr ⟨e, hm, rfl⟩)
    · intro hsome
      obtain ⟨e', hm', hn⟩ := reconcileStoredServices_kept_of_mem inferS srcVars pol
        src.services store.services keptS chS h1 e hm hsome
      exact ⟨e', List.mem_append.mpr (Or.inl hm'), hn⟩
  · intro m hmem
    rcases rep_mem_cases hmem with hv | hS | hAS | hV | hAV
    · exact Change.noConfusion (mem_versionCh hv)
    · exact reconcileStoredServices_deleted_src inferS srcVars pol src.services
        store.services keptS chS h1 m hS
    · obtain ⟨n', he'⟩ := addServices_changes inferS srcVars _ src.services addS chAS h2 _ hAS
      exact Change.noConfusion he'
    · rcases reconcileStoredVolumes_changes inferV pol src.volumes store.volumes keptV chV
          h3 _ hV with ⟨a, e'⟩ | ⟨a, b, c', d, e'⟩ | ⟨a, b, c', e'⟩ <;>
        exact Change.noConfusion e'
    · obtain ⟨n', he'⟩ := addVolumes_changes inferV _ src.volumes addV chAV h4 _ hAV
      exact Change.noConfusion he'
  · intro e hm
    constructor
    · intro hnone
      constructor
      · exact rep_mem_of_chV
          (reconcileStoredVolumes_deleted inferV pol src.volumes
            store.volumes keptV chV h3 e hm hnone)
      · intro e' hm' hne
        rcases List.mem_append.mp hm' with hmk | hma
        · have := reconcileStoredVolumes_kept_isSome inferV pol src.volumes
            store.volumes keptV chV h3 e' hmk
          rw [hne, hnone] at this
          exact Bool.noConfusion this
        · have := addVolumes_not_stored inferV _ src.volumes addV chAV h4 e' hma
          exact this (hne ▸ List.mem_map.mpr ⟨e, hm, rfl⟩)
    · intro hsome
      obtain ⟨e', hm', hn⟩ := reconcileStoredVolumes_kept_of_mem inferV pol
        src.volumes store.volumes keptV chV h3 e hm hsome
      exact ⟨e', List.mem_append.mpr (Or.inl hm'), hn⟩
  · intro m hmem
    rcases rep_mem_cases hmem with hv | hS | hAS | hV | hAV
    · exact Change.noConfusion (mem_versionCh hv)
    · rcases reconcileStoredServices_changes inferS srcVars pol src.services store.services
          keptS chS h1 _ hS with
        ⟨a, e'⟩ | ⟨a, b, c', d, e'⟩ | ⟨a, b, c', e'⟩ | ⟨a, b, e'⟩ | ⟨a, b, e'⟩ <;>
      exact Change.noConfusion e'
    · obtain ⟨n', he'⟩ := addServices_changes inferS srcVars _ src.services addS chAS h2 _ hAS
      exact Change.noConfusion he'
    · exact reconcileStoredVolumes_deleted_src inferV pol src.volumes
        store.volumes keptV chV h3 m hV
    · obtain ⟨n', he'⟩ := addVolumes_changes inferV _ src.volumes addV chAV h4 _ hAV
      exact Change.noConfusion he'

/-- Witness for C4: reconciling a store holding service `wordpress` against a
source declaring only `db` deletes `wordpress`, reports it, and keeps `db`. -/
theorem entity_deletion_witness :
    Change.svcDeleted "wordpress" ∈
      ([Change.svcDeleted "wordpress"] : List Change) ∧
    plookup "wordpress"
      ([("db", ())] : List (String × Unit)) = none := by
  have hd := entity_deletion (fun _ : Unit => some []) (fun _ : Unit => some [])
      (fun _ => []) (fun _ => Policy.unrecognized)
      { version := "3", services := [("db", ())], volumes := [] }
      { version := "3",
        services := [{ name := "db", params := [], envVars := [] },
                     { name := "wordpress", params := [], envVars := [] }],
        volumes := [] }
      { version := "3",
        services := [{ name := "db", params := [], envVars := [] }],
        volumes := [] }
      [Change.svcDeleted "wordpress"] (by decide)
  have := (hd.1 { name := "wordpress", params := [], envVars := [] } (by decide)).1 (by decide)
  exact ⟨this.1, hd.2.1 "wordpress" this.1⟩

end KevSpec

namespace KevSpec

/-- C2: for an Entity present in both the Source Model and the Override
Store, a Tunable parameter key already present in the stored Entity keeps its
stored value verbatim and produces no report entry for that key, regardless
of what inference would now produce. -/
theorem tunable_preserved {σ τ : Type} (inferS : σ → Option Params) (inferV : τ → Option Params)
    (srcVars : σ → List (String × Option String)) (pol : String → Policy)
    (src : SourceModel σ τ) (store store' : OverrideStore) (rep : List Change)
    (hndS : (store.services.map StoredEntity.name).Nodup)
    (hndV : (store.volumes.map StoredVolume.name).Nodup)
    (h : reconcileEnv inferS inferV srcVars pol src store = some (store', rep)) :
    (∀ e ∈ store.services, ∀ k v, pol k = .tunable →
       (plookup e.name src.services).isSome = true → plookup k e.params = some v →
       ((∃ e' ∈ store'.services, e'.name = e.name) ∧
        (∀ e' ∈ store'.services, e'.name = e.name → plookup k e'.params = some v) ∧
        (∀ o w, Change.svcParamUpdated e.name k o w ∉ rep) ∧
        (∀ w, Change.svcParamAdded e.name k w ∉ rep))) ∧
    (∀ e ∈ store.volumes, ∀ k v, pol k = .tunable →
       (plookup e.name src.volumes).isSome = true → plookup k e.params = some v →
       ((∃ e' ∈ store'.volumes, e'.name = e.name) ∧
        (∀ e' ∈ store'.volumes, e'.name = e.name → plookup k e'.params = some v) ∧
        (∀ o w, Change.volParamUpdated e.name k o w ∉ rep) ∧
        (∀ w, Change.volParamAdded e.name k w ∉ rep))) := by
  obtain ⟨keptS, chS, addS, chAS, keptV, chV, addV, chAV, h1, h2, h3, h4, hst, hrep⟩ :=
    reconcileEnv_eq inferS inferV srcVars pol src store store' rep h
  subst hst hrep
  constructor
  · intro e hm k v hpol hsome hlook
    obtain ⟨f, hf⟩ := Option.isSome_iff_exists.mp hsome
    obtain ⟨ps, hps⟩ := reconcileStoredServices_infer_some inferS srcVars pol src.services
      store.services keptS chS h1 e hm f hf
    obtain ⟨c1, c2, c3, c4, c5, c6, c7, c8⟩ := reconcileStoredServices_common inferS srcVars
      pol src.services store.services keptS chS hndS h1 e hm f ps hf hps
    have hsk : (plookup k e.params).isSome = true := by rw [hlook]; rfl
    obtain ⟨hkeep, hnock⟩ :=
      @mergeParams_tunable_kept pol k hpol ps e.params hsk
    refine ⟨?_, ?_, ?_, ?_⟩
    · obtain ⟨e', hm', hn⟩ := c2
      exact ⟨e', List.mem_append.mpr (Or.inl hm'), hn⟩
    · intro e' hm' hn
      rcases List.mem_append.mp hm' with hmk | hma
      · rw [(c1 e' hmk hn).1, hkeep]
        exact hlook
      · have := addServices_not_stored inferS srcVars _ src.services addS chAS h2 e' hma
        exact absurd (hn ▸ List.mem_map.mpr ⟨e, hm, rfl⟩) this
    · intro o w hmem
      rcases rep_mem_cases hmem with hv | hS | hAS | hV | hAV
      · exact Change.noConfusion (mem_versionCh hv)
      · exact hnock _ (c5 k o w hS) rfl
      · obtain ⟨n', he'⟩ := addServices_changes inferS srcVars _ src.services addS chAS h2 _ hAS
        exact Change.noConfusion he'
      · rcases reconcileStoredVolumes_changes inferV pol src.volumes store.volumes keptV chV
            h3 _ hV with ⟨a, e'⟩ | ⟨a, b, c', d, e'⟩ | ⟨a, b, c', e'⟩ <;>
          exact Change.noConfusion e'
      · obtain ⟨n', he'⟩ := addVolumes_changes inferV _ src.volumes addV chAV h4 _ hAV
        exact Change.noConfusion he'
    · intro w hmem
      rcases rep_mem_cases hmem with hv | hS | hAS | hV | hAV
      · exact Change.noConfusion (mem_versionCh hv)
      · exact hnock _ (c6 k w hS) rfl
      · obtain ⟨n', he'⟩ := addServices_changes inferS srcVars _ src.services addS chAS h2 _ hAS
        exact Change.noConfusion he'
      · rcases reconcileStoredVolumes_changes inferV pol src.volumes store.volumes keptV chV
            h3 _ hV with ⟨a, e'⟩ | ⟨a, b, c', d, e'⟩ | ⟨a, b, c', e'⟩ <;>
          exact Change.noConfusion e'
      · obtain ⟨n', he'⟩ := addVolumes_changes inferV _ src.volumes addV chAV h4 _ hAV
        exact Change.noConfusion he'
  · intro e hm k v hpol hsome hlook
    obtain ⟨f, hf⟩ := Option.isSome_iff_exists.mp hsome
    obtain ⟨ps, hps⟩ := reconcileStoredVolumes_infer_some inferV pol src.volumes
      store.volumes keptV chV h3 e hm f hf
    obtain ⟨d1, d2, d3, d4, d5⟩ := reconcileStoredVolumes_common inferV
      pol src.volumes store.volumes keptV chV hndV h3 e hm f ps hf hps
    have hsk : (plookup k e.params).isSome = true := by rw [hlook]; rfl
    obtain ⟨hkeep, hnock⟩ :=
      @mergeParams_tunable_kept pol k hpol ps e.params hsk
    refine ⟨?_, ?_, ?_, ?_⟩
    · obtain ⟨e', hm', hn⟩ := d2
      exact ⟨e', List.mem_append.mpr (Or.inl hm'), hn⟩
    · intro e' hm' hn
      rcases List.mem_append.mp hm' with hmk | hma
      · rw [d1 e' hmk hn, hkeep]
        exact hlook
      · have := addVolumes_not_stored inferV _ src.volumes addV chAV h4 e' hma
        exact absurd (hn ▸ List.mem_map.mpr ⟨e, hm, rfl⟩) this
    · intro o w hmem
      rcases rep_mem_cases hmem with hv | hS | hAS | hV | hAV
      · exact Change.noConfusion (mem_versionCh hv)
      · rcases reconcileStoredServices_changes inferS srcVars pol src.services store.services
            keptS chS h1 _ hS with
          ⟨a, e'⟩ | ⟨a, b, c', d, e'⟩ | ⟨a, b, c', e'⟩ | ⟨a, b, e'⟩ | ⟨a, b, e'⟩ <;>
        exact Change.noConfusion e'
      · obtain ⟨n', he'⟩ := addServices_changes inferS srcVars _ src.services addS chAS h2 _ hAS
        exact Change.noConfusion he'
      · exact hnock _ (d4 k o w hV) rfl
      · obtain ⟨n', he'⟩ := addVolumes_changes inferV _ src.volumes addV chAV h4 _ hAV
        exact Change.noConfusion he'
    · intro w hmem
      rcases rep_mem_cases hmem with hv | hS | hAS | hV | hAV
      · exact Change.noConfusion (mem_versionCh hv)
      · rcases reconcileStoredServices_changes inferS srcVars pol src.services store.services
            keptS chS h1 _ hS with
          ⟨a, e'⟩ | ⟨a, b, c', d, e'⟩ | ⟨a, b, c', e'⟩ | ⟨a, b, e'⟩ | ⟨a, b, e'⟩ <;>
        exact Change.noConfusion e'
      · obtain ⟨n', he'⟩ := addServices_changes inferS srcVars _ src.services addS chAS h2 _ hAS
        exact Change.noConfusion he'
      · exact hnock _ (d5 k w hV) rfl
      · obtain ⟨n', he'⟩ := addVolumes_changes inferV _ src.volumes addV chAV h4 _ hAV
        exact Change.noConfusion he'

/-- Witness for C2: the stored Tunable value `0.5` for `kev.workload.cpu`
survives reconciliation verbatim even though inference would default it to
`0.1`, and the report carries no entry for that key. -/
theorem tunable_preserved_witness :
    plookup "kev.workload.cpu"
        ([("kev.workload.cpu", "0.5")] : Params) = some "0.5" ∧
    Change.svcParamUpdated "db" "kev.workload.cpu" none "0.1" ∉ ([] : List Change) := by
  have ht := tunable_preserved
      (fun _ : Unit => some [("kev.workload.cpu", "0.1")]) (fun _ : Unit => some [])
      (fun _ => []) (fun _ => Policy.tunable)
      { version := "3", services := [("db", ())], volumes := [] }
      { version := "3",
        services := [{ name := "db", params := [("kev.workload.cpu", "0.5")], envVars := [] }],
        volumes := [] }
      { version := "3",
        services := [{ name := "db", params := [("kev.workload.cpu", "0.5")], envVars := [] }],
        volumes := [] }
      [] (by decide) (by decide) (by decide)
  have hc := ht.1 { name := "db", params := [("kev.workload.cpu", "0.5")], envVars := [] }
      (by decide) "kev.workload.cpu" "0.5" rfl (by decide) (by decide)
  exact ⟨hc.2.1 { name := "db", params := [("kev.workload.cpu", "0.5")], envVars := [] }
      (by decide) rfl, hc.2.2.1 none "0.1"⟩

end KevSpec

namespace KevSpec

/-- C3: for an Entity present in both the Source Model and the Override
Store, a Derived parameter key is overwritten with the freshly inferred
value, and an updated entry carrying the old and new values is reported
exactly when the inferred value differs from the stored one. -/
theorem derived_overwrite {σ τ : Type} (inferS : σ → Option Params) (inferV : τ → Option Params)
    (srcVars : σ → List (String × Option String)) (pol : String → Policy)
    (src : SourceModel σ τ) (store store' : OverrideStore) (rep : List Change)
    (hndS : (store.services.map StoredEntity.name).Nodup)
    (hndV : (store.volumes.map StoredVolume.name).Nodup)
    (hinfS : ∀ f ps, inferS f = some ps → (ps.map Prod.fst).Nodup)
    (hinfV : ∀ f ps, inferV f = some ps → (ps.map Prod.fst).Nodup)
    (h : reconcileEnv inferS inferV srcVars pol src store = some (store', rep)) :
    (∀ e ∈ store.services, ∀ f ps k v old,
       plookup e.name src.services = some f → inferS f = some ps →
       pol k = .derived → plookup k ps = some v → plookup k e.params = some old →
       ((∃ e' ∈ store'.services, e'.name = e.name) ∧
        (∀ e' ∈ store'.services, e'.name = e.name → plookup k e'.params = some v) ∧
        (old ≠ v → Change.svcParamUpdated e.name k (some old) v ∈ rep) ∧
        (old = v → ∀ o w, Change.svcParamUpdated e.name k o w ∉ rep))) ∧
    (∀ e ∈ store.volumes, ∀ f ps k v old,
       plookup e.name src.volumes = some f → inferV f = some ps →
       pol k = .derived → plookup k ps = some v → plookup k e.params = some old →
       ((∃ e' ∈ store'.volumes, e'.name = e.name) ∧
        (∀ e' ∈ store'.volumes, e'.name = e.name → plookup k e'.params = some v) ∧
        (old ≠ v → Change.volParamUpdated e.name k (some old) v ∈ rep) ∧
        (old = v → ∀ o w, Change.volParamUpdated e.name k o w ∉ rep))) := by
  obtain ⟨keptS, chS, addS, chAS, keptV, chV, addV, chAV, h1, h2, h3, h4, hst, hrep⟩ :=
    reconcileEnv_eq inferS inferV srcVars pol src store store' rep h
  subst hst hrep
  constructor
  · intro e hm f ps k v old hf hps hpol hinfk hstk
    obtain ⟨c1, c2, c3, c4, c5, c6, c7, c8⟩ := reconcileStoredServices_common inferS srcVars
      pol src.services store.services keptS chS hndS h1 e hm f ps hf hps
    obtain ⟨d1, d2, d3⟩ := mergeParams_derived_overwrite hpol (hinfS f ps hps)
      (plookup_mem hinfk) hstk
    refine ⟨?_, ?_, ?_, ?_⟩
    · obtain ⟨e', hm', hn⟩ := c2
      exact ⟨e', List.mem_append.mpr (Or.inl hm'), hn⟩
    · intro e' hm' hn
      rcases List.mem_append.mp hm' with hmk | hma
      · rw [(c1 e' hmk hn).1]
        exact d1
      · have := addServices_not_stored inferS srcVars _ src.services addS chAS h2 e' hma
        exact absurd (hn ▸ List.mem_map.mpr ⟨e, hm, rfl⟩) this
    · intro hne
      exact rep_mem_of_chS (c3 _ (d2 hne))
    · intro hov o w hmem
      rcases rep_mem_cases hmem with hv | hS | hAS | hV | hAV
      · exact Change.noConfusion (mem_versionCh hv)
      · exact d3 hov _ (c5 k o w hS) rfl
      · obtain ⟨n', he'⟩ := addServices_changes inferS srcVars _ src.services addS chAS h2 _ hAS
        exact Change.noConfusion he'
      · rcases reconcileStoredVolumes_changes inferV pol src.volumes store.volumes keptV chV
            h3 _ hV with ⟨a, e'⟩ | ⟨a, b, c', d, e'⟩ | ⟨a, b, c', e'⟩ <;>
          exact Change.noConfusion e'
      · obtain ⟨n', he'⟩ := addVolumes_changes inferV _ src.volumes addV chAV h4 _ hAV
        exact Change.noConfusion he'
  · intro e hm f ps k v old hf hps hpol hinfk hstk
    obtain ⟨c1, c2, c3, c4, c5⟩ := reconcileStoredVolumes_common inferV
      pol src.volumes store.volumes keptV chV hndV h3 e hm f ps hf hps
    obtain ⟨d1, d2, d3⟩ := mergeParams_derived_overwrite hpol (hinfV f ps hps)
      (plookup_mem hinfk) hstk
    refine ⟨?_, ?_, ?_, ?_⟩
    · obtain ⟨e', hm', hn⟩ := c2
      exact ⟨e', List.mem_append.mpr (Or.inl hm'), hn⟩
    · intro e' hm' hn
      rcases List.mem_append.mp hm' with hmk | hma
      · rw [c1 e' hmk hn]
        exact d1
      · have := addVolumes_not_stored inferV _ src.volumes addV chAV h4 e' hma
        exact absurd (hn ▸ List.mem_map.mpr ⟨e, hm, rfl⟩) this
    · intro hne
      exact rep_mem_of_chV (c3 _ (d2 hne))
    · intro hov o w hmem
      rcases rep_mem_cases hmem with hv | hS | hAS | hV | hAV
      · exact Change.noConfusion (mem_versionCh hv)
      · rcases reconcileStoredServices_changes inferS srcVars pol src.services store.services
            keptS chS h1 _ hS with
          ⟨a, e'⟩ | ⟨a, b, c', d, e'⟩ | ⟨a, b, c', e'⟩ | ⟨a, b, e'⟩ | ⟨a, b, e'⟩ <;>
        exact Change.noConfusion e'
      · obtain ⟨n', he'⟩ := addServices_changes inferS srcVars _ src.services addS chAS h2 _ hAS
        exact Change.noConfusion he'
      · exact d3 hov _ (c4 k o w hV) rfl
      · obtain ⟨n', he'⟩ := addVolumes_changes inferV _ src.volumes addV chAV h4 _ hAV
        exact Change.noConfusion he'

/-- Witness for C3: the Derived key `kev.service.type` stored as
`LoadBalancer` is overwritten with the freshly inferred `NodePort` and the
report carries the updated entry with both values. -/
theorem derived_overwrite_witness :
    plookup "kev.service.type"
        ([("kev.service.type", "NodePort")] : Params) = some "NodePort" ∧
    Change.svcParamUpdated "wordpress" "kev.service.type" (some "LoadBalancer") "NodePort" ∈
      [Change.svcParamUpdated "wordpress" "kev.service.type" (some "LoadBalancer") "NodePort"] := by
  have ht := derived_overwrite
      (fun _ : Unit => some [("kev.service.type", "NodePort")]) (fun _ : Unit => some [])
      (fun _ => []) (fun _ => Policy.derived)
      { version := "3", services := [("wordpress", ())], volumes := [] }
      { version := "3",
        services := [{ name := "wordpress",
                       params := [("kev.service.type", "LoadBalancer")], envVars := [] }],
        volumes := [] }
      { version := "3",
        services := [{ name := "wordpress",
                       params := [("kev.service.type", "NodePort")], envVars := [] }],
        volumes := [] }
      [Change.svcParamUpdated "wordpress" "kev.service.type" (some "LoadBalancer") "NodePort"]
      (by decide) (by decide)
      (fun f ps hp => by cases hp; decide)
      (fun f ps hp => by cases hp; decide)
      (by decide)
  have hc := ht.1
      ({ name := "wordpress", params := [("kev.service.type", "LoadBalancer")], envVars := [] } : StoredEntity)
      (by decide) () [("kev.service.type", "NodePort")]
      "kev.service.type" "NodePort" "LoadBalancer" rfl rfl rfl rfl (by decide)
  exact ⟨hc.2.1
      ({ name := "wordpress", params := [("kev.service.type", "NodePort")], envVars := [] } : StoredEntity)
      (by decide) rfl,
    hc.2.2.1 (by decide)⟩

end KevSpec

namespace KevSpec

/-- C5 counterexample: a variable `X` bound in the stored override but no
longer declared among the Source Model's variables for the entity is removed
by reconciliation (and reported as deleted), so an already-bound variable
does not retain its stored binding unconditionally. -/
theorem envvar_binding_counterexample :
    plookup "X" ([("X", Binding.literal "x")] : List (String × Binding))
      = some (Binding.literal "x") ∧
    reconcileEnv (fun _ : Unit => some []) (fun _ : Unit => some [])
        (fun _ => []) (fun _ => Policy.unrecognized)
        { version := "3", services := [("db", ())], volumes := ([] : List (String × Unit)) }
        { version := "3",
          services := [{ name := "db", params := [], envVars := [("X", Binding.literal "x")] }],
          volumes := [] }
      = some ({ version := "3",
                services := [{ name := "db", params := [], envVars := [] }],
                volumes := [] },
              [Change.svcVarDeleted "db" "X"]) ∧
    plookup "X" (({ name := "db", params := [], envVars := [] } : StoredEntity).envVars)
      = none := by
  exact ⟨rfl, by decide, rfl⟩

/-- C5 (amended): for an Entity present in both the Source Model and the
Override Store, an environment-variable name bound in the stored override
AND still declared among the Source Model's variables keeps its stored
binding (literal, secret-ref, or config-ref) unchanged, with no add or
delete entry for it; the Source Model's value is never applied to an
already-bound variable.  (Variables no longer declared in the Source Model
are removed instead.) -/
theorem envvar_binding_preserved {σ τ : Type} (inferS : σ → Option Params)
    (inferV : τ → Option Params) (srcVars : σ → List (String × Option String))
    (pol : String → Policy) (src : SourceModel σ τ) (store store' : OverrideStore)
    (rep : List Change)
    (hndS : (store.services.map StoredEntity.name).Nodup)
    (h : reconcileEnv inferS inferV srcVars pol src store = some (store', rep)) :
    ∀ e ∈ store.services, ∀ f x b,
      plookup e.name src.services = some f →
      (plookup x (srcVars f)).isSome = true →
      plookup x e.envVars = some b →
      ((∃ e' ∈ store'.services, e'.name = e.name) ∧
       (∀ e' ∈ store'.services, e'.name = e.name → plookup x e'.envVars = some b) ∧
       Change.svcVarAdded e.name x ∉ rep ∧
       Change.svcVarDeleted e.name x ∉ rep) := by
  obtain ⟨keptS, chS, addS, chAS, keptV, chV, addV, chAV, h1, h2, h3, h4, hst, hrep⟩ :=
    reconcileEnv_eq inferS inferV srcVars pol src store store' rep h
  subst hst hrep
  intro e hm f x b hf hsx hst
  obtain ⟨ps, hps⟩ := reconcileStoredServices_infer_some inferS srcVars pol src.services
    store.services keptS chS h1 e hm f hf
  obtain ⟨c1, c2, c3, c4, c5, c6, c7, c8⟩ := reconcileStoredServices_common inferS srcVars
    pol src.services store.services keptS chS hndS h1 e hm f ps hf hps
  obtain ⟨hkeep, hnox⟩ := mergeVars_kept hsx hst
  refine ⟨?_, ?_, ?_, ?_⟩
  · obtain ⟨e', hm', hn⟩ := c2
    exact ⟨e', List.mem_append.mpr (Or.inl hm'), hn⟩
  · intro e' hm' hn
    rcases List.mem_append.mp hm' with hmk | hma
    · rw [(c1 e' hmk hn).2]
      exact hkeep
    · have := addServices_not_stored inferS srcVars _ src.services addS chAS h2 e' hma
      exact absurd (hn ▸ List.mem_map.mpr ⟨e, hm, rfl⟩) this
  · intro hmem
    rcases rep_mem_cases hmem with hv | hS | hAS | hV | hAV
    · exact Change.noConfusion (mem_versionCh hv)
    · exact hnox _ (c7 x hS) rfl
    · obtain ⟨n', he'⟩ := addServices_changes inferS srcVars _ src.services addS chAS h2 _ hAS
      exact Change.noConfusion he'
    · rcases reconcileStoredVolumes_changes inferV pol src.volumes store.volumes keptV chV
          h3 _ hV with ⟨a, e'⟩ | ⟨a, b', c', d, e'⟩ | ⟨a, b', c', e'⟩ <;>
        exact Change.noConfusion e'
    · obtain ⟨n', he'⟩ := addVolumes_changes inferV _ src.volumes addV chAV h4 _ hAV
      exact Change.noConfusion he'
  · intro hmem
    rcases rep_mem_cases hmem with hv | hS | hAS | hV | hAV
    · exact Change.noConfusion (mem_versionCh hv)
    · exact hnox _ (c8 x hS) rfl
    · obtain ⟨n', he'⟩ := addServices_changes inferS srcVars _ src.services addS chAS h2 _ hAS
      exact Change.noConfusion he'
    · rcases reconcileStoredVolumes_changes inferV pol src.volumes store.volumes keptV chV
          h3 _ hV with ⟨a, e'⟩ | ⟨a, b', c', d, e'⟩ | ⟨a, b', c', e'⟩ <;>
        exact Change.noConfusion e'
    · obtain ⟨n', he'⟩ := addVolumes_changes inferV _ src.volumes addV chAV h4 _ hAV
      exact Change.noConfusion he'

/-- Witness for C5's amended statement: the stored secret-ref binding of `X`
survives reconciliation even though the Source Model declares `X` with a
literal value, and no variable entry for `X` is reported. -/
theorem envvar_binding_preserved_witness :
    plookup "X" ([("X", Binding.secretRef "dbsecret" "pass")] : List (String × Binding))
      = some (Binding.secretRef "dbsecret" "pass") ∧
    Change.svcVarDeleted "db" "X" ∉ ([] : List Change) := by
  have ht := envvar_binding_preserved (fun _ : Unit => some [])
      (fun _ : Unit => some []) (fun _ => [("X", some "fromsource")]) (fun _ => Policy.unrecognized)
      { version := "3", services := [("db", ())], volumes := [] }
      { version := "3",
        services := [{ name := "db", params := [],
                       envVars := [("X", Binding.secretRef "dbsecret" "pass")] }],
        volumes := [] }
      { version := "3",
        services := [{ name := "db", params := [],
                       envVars := [("X", Binding.secretRef "dbsecret" "pass")] }],
        volumes := [] }
      [] (by decide) (by decide)
  have hc := ht
      ({ name := "db", params := [], envVars := [("X", Binding.secretRef "dbsecret" "pass")] } : StoredEntity)
      (by decide) () "X" (Binding.secretRef "dbsecret" "pass") rfl (by decide) (by decide)
  exact ⟨hc.2.1
      ({ name := "db", params := [], envVars := [("X", Binding.secretRef "dbsecret" "pass")] } : StoredEntity)
      (by decide) rfl, hc.2.2.2⟩

end KevSpec

namespace KevSpec

/-- C1: reconciliation is idempotent — whenever a run succeeds, running the
Reconciler again on the resulting Override Store, with the same Source Model
and no intervening edit, succeeds, changes nothing, and produces an empty
Change Report.  Source entity names are unique per kind and inference
yields key-unique parameter sets (both data-model invariants of the spec). -/
theorem reconcile_idempotent {σ τ : Type} (inferS : σ → Option Params)
    (inferV : τ → Option Params) (srcVars : σ → List (String × Option String))
    (pol : String → Policy) (src : SourceModel σ τ) (store store' : OverrideStore)
    (rep : List Change)
    (hndS : (src.services.map Prod.fst).Nodup)
    (hndV : (src.volumes.map Prod.fst).Nodup)
    (hinfS : ∀ f ps, inferS f = some ps → (ps.map Prod.fst).Nodup)
    (hinfV : ∀ f ps, inferV f = some ps → (ps.map Prod.fst).Nodup)
    (h : reconcileEnv inferS inferV srcVars pol src store = some (store', rep)) :
    reconcileEnv inferS inferV srcVars pol src store' = some (store', []) := by
  obtain ⟨keptS, chS, addS, chAS, keptV, chV, addV, chAV, h1, h2, h3, h4, hst, hrep⟩ :=
    reconcileEnv_eq inferS inferV srcVars pol src store store' rep h
  subst hst
  have hsyncS : ∀ e ∈ keptS ++ addS, SvcSynced inferS srcVars pol src.services e := by
    intro e hm
    rcases List.mem_append.mp hm with hmk | hma
    · exact reconcileStoredServices_synced_after inferS srcVars pol src.services hinfS
        store.services keptS chS h1 e hmk
    · exact addServices_synced_after inferS srcVars pol _ src.services hinfS src.services
        (fun p hp => plookup_of_mem_nodup hndS (by rw [Prod.mk.eta]; exact hp))
        addS chAS h2 e hma
  have hsyncV : ∀ e ∈ keptV ++ addV, VolSynced inferV pol src.volumes e := by
    intro e hm
    rcases List.mem_append.mp hm with hmk | hma
    · exact reconcileStoredVolumes_synced_after inferV pol src.volumes hinfV
        store.volumes keptV chV h3 e hmk
    · exact addVolumes_synced_after inferV pol _ src.volumes hinfV src.volumes
        (fun p hp => plookup_of_mem_nodup hndV (by rw [Prod.mk.eta]; exact hp))
        addV chAV h4 e hma
  have hS2 : reconcileStoredServices inferS srcVars pol src.services (keptS ++ addS)
      = some (keptS ++ addS, []) :=
    reconcileStoredServices_synced_stable inferS srcVars pol src.services _ hsyncS
  have hV2 : reconcileStoredVolumes inferV pol src.volumes (keptV ++ addV)
      = some (keptV ++ addV, []) :=
    reconcileStoredVolumes_synced_stable inferV pol src.volumes _ hsyncV
  have hA2 : addServices inferS srcVars ((keptS ++ addS).map StoredEntity.name) src.services
      = some ([], []) := by
    apply addServices_all_present
    intro p hp
    by_cases hn : p.1 ∈ store.services.map StoredEntity.name
    · obtain ⟨e, hme, hen⟩ := List.mem_map.mp hn
      obtain ⟨e', hme', hen'⟩ := reconcileStoredServices_kept_of_mem inferS srcVars pol
        src.services store.services keptS chS h1 e hme
        (by rw [hen]
            exact plookup_isSome_of_mem (v := p.2) (by rw [Prod.mk.eta]; exact hp))
      exact List.mem_map.mpr ⟨e', List.mem_append.mpr (Or.inl hme'), by rw [hen', hen]⟩
    · have hms := addServices_mem_names inferS srcVars _ src.services addS chAS h2 p.1 p.2
        (by rw [Prod.mk.eta]; exact hp) hn
      obtain ⟨e', hme', hen'⟩ := List.mem_map.mp hms
      exact List.mem_map.mpr ⟨e', List.mem_append.mpr (Or.inr hme'), hen'⟩
  have hAV2 : addVolumes inferV ((keptV ++ addV).map StoredVolume.name) src.volumes
      = some ([], []) := by
    apply addVolumes_all_present
    intro p hp
    by_cases hn : p.1 ∈ store.volumes.map StoredVolume.name
    · obtain ⟨e, hme, hen⟩ := List.mem_map.mp hn
      obtain ⟨e', hme', hen'⟩ := reconcileStoredVolumes_kept_of_mem inferV pol
        src.volumes store.volumes keptV chV h3 e hme
        (by rw [hen]
            exact plookup_isSome_of_mem (v := p.2) (by rw [Prod.mk.eta]; exact hp))
      exact List.mem_map.mpr ⟨e', List.mem_append.mpr (Or.inl hme'), by rw [hen', hen]⟩
    · have hms := addVolumes_mem_names inferV _ src.volumes addV chAV h4 p.1 p.2
        (by rw [Prod.mk.eta]; exact hp) hn
      obtain ⟨e', hme', hen'⟩ := List.mem_map.mp hms
      exact List.mem_map.mpr ⟨e', List.mem_append.mpr (Or.inr hme'), hen'⟩
  simp only [reconcileEnv, hS2, hA2, hV2, hAV2]
  simp

/-- Witness for C1: a first reconciliation that syncs the version, adds a
service and adds a volume; re-running it on its own output changes nothing
and reports nothing. -/
theorem reconcile_idempotent_witness :
    reconcileEnv (fun _ : Unit => some [("kev.workload.replicas", "1")])
        (fun _ : Unit => some [("kev.volume.size", "100Mi")])
        (fun _ => [("DB_USER", some "admin")])
        (fun k => if k = "kev.service.type" then Policy.derived else Policy.tunable)
        { version := "3.7", services := [("db", ())], volumes := [("db_data", ())] }
        { version := "3.7",
          services := [{ name := "db", params := [("kev.workload.replicas", "1")],
                         envVars := [("DB_USER", Binding.literal "admin")] }],
          volumes := [{ name := "db_data", params := [("kev.volume.size", "100Mi")] }] }
      = some ({ version := "3.7",
                services := [{ name := "db", params := [("kev.workload.replicas", "1")],
                               envVars := [("DB_USER", Binding.literal "admin")] }],
                volumes := [{ name := "db_data", params := [("kev.volume.size", "100Mi")] }] },
              []) := by
  exact reconcile_idempotent _ _ _ _
    { version := "3.7", services := [("db", ())], volumes := [("db_data", ())] }
    { version := "3.5", services := [], volumes := [] }
    { version := "3.7",
      services := [{ name := "db", params := [("kev.workload.replicas", "1")],
                     envVars := [("DB_USER", Binding.literal "admin")] }],
      volumes := [{ name := "db_data", params := [("kev.volume.size", "100Mi")] }] }
    [Change.versionUpdated "3.5" "3.7", Change.svcAdded "db", Change.volAdded "db_data"]
    (by decide) (by decide)
    (fun f ps hp => by cases hp; decide)
    (fun f ps hp => by cases hp; decide)
    (by decide)

end KevSpec
